import Mathlib

/-!
A shallow embedding of the resume-review ingestion-to-classification pipeline:
the CSV manifest store (`src/lib/csvManifest.ts`, `src/lib/bulkManifest.ts`),
the tiered LLM classifier (`src/lib/llmAnalyzer.ts`), the bounded-concurrency
bulk analysis queue (`src/lib/bulkAnalysisPipeline.ts`) and the filename
identity codec (`src/lib/utils.ts`).  JavaScript strings are embedded as
`List Char`; a file's raw content is such a list and a possibly-absent file is
an `Option` of it.
-/

namespace ResumeReview

/-- JavaScript strings, modelled as lists of characters. -/
abbrev Str := List Char

/-- The characters of the JavaScript whitespace class as used by `.trim()` and
the `/\s+/g` regex (ASCII portion; the exotic Unicode space variants do not
occur in the inputs modelled here). -/
def isWsChar (c : Char) : Bool :=
  c = ' ' || c = '\t' || c = '\n' || c = '\r' || c = '\x0b' || c = '\x0c'

/-- JavaScript `String.prototype.trim`. -/
def trimStr (s : Str) : Str :=
  ((s.dropWhile isWsChar).reverse.dropWhile isWsChar).reverse

/-- Split a character list at every occurrence of `sep`; `n` separators yield
`n + 1` pieces and the pieces contain no `sep`, like JavaScript `split`. -/
def splitOnChar (sep : Char) : Str → List Str
  | [] => [[]]
  | c :: rest =>
    let tail := splitOnChar sep rest
    if c = sep then [] :: tail
    else
      match tail with
      | [] => [[c]]
      | h :: t => (c :: h) :: t

/-- Drop a single carriage return at the end of a piece, so that splitting at
`'\n'` and then applying this models JavaScript `split(/\r?\n/)`. -/
def dropTrailCr (s : Str) : Str :=
  if s.getLast? = some '\r' then s.dropLast else s

/-- JavaScript `raw.split(/\r?\n/)`. -/
def splitLines (raw : Str) : List Str :=
  (splitOnChar '\n' raw).map dropTrailCr

/-- JavaScript `String.prototype.toLowerCase` (ASCII portion). -/
def lowerStr (s : Str) : Str :=
  s.map Char.toLower

/-- The manifest header row `filename,label` (without the newline). -/
def headerLine : Str := "filename,label".data

/-- `line.toLowerCase().startsWith('filename,')`. -/
def isHeaderLine (line : Str) : Bool :=
  "filename,".data.isPrefixOf (lowerStr line)

/-- `line.indexOf(',')` followed by the two slices: `none` when the line has no
comma, otherwise the part before the first comma and the part after it. -/
def splitAtComma : Str → Option (Str × Str)
  | [] => none
  | c :: rest =>
    if c = ',' then some ([], rest)
    else (splitAtComma rest).map (fun p => (c :: p.1, p.2))

/-- JavaScript `Map.prototype.set`: replace the value at an existing key in
place, otherwise append the binding (a JavaScript `Map` preserves
first-insertion order). -/
def mapSet : List (Str × Str) → Str → Str → List (Str × Str)
  | [], k, v => [(k, v)]
  | (k0, v0) :: rest, k, v =>
    if k0 = k then (k0, v) :: rest else (k0, v0) :: mapSet rest k v

/-- JavaScript `Map.prototype.get`. -/
def mapGet (m : List (Str × Str)) (k : Str) : Option Str :=
  (m.find? (fun p => p.1 == k)).map (fun p => p.2)

/-- The status tokens of `src/lib/labels.ts`. -/
def pendingLabel : Str := "pending".data

/-- `STATUS_IN_PROGRESS`. -/
def inProgressLabel : Str := "in_progress".data

/-- `STATUS_GOOD_FIT`. -/
def goodFitLabel : Str := "good_fit".data

/-- `STATUS_BAD_FIT`. -/
def badFitLabel : Str := "bad_fit".data

/-- `STATUS_VERY_GOOD`. -/
def veryGoodLabel : Str := "very_good".data

/-- `STATUS_PERFECT`. -/
def perfectLabel : Str := "perfect".data

/-- One data row of `readLabels`: the text before the first comma and the text
after it, both trimmed; rows without a comma and rows whose filename or label
part trims to nothing are skipped. -/
def parseEntryLine (line : Str) : Option (Str × Str) :=
  match splitAtComma line with
  | none => none
  | some (a, b) =>
    let f := trimStr a
    let l := trimStr b
    if f.isEmpty || l.isEmpty then none else some (f, l)

/-- `raw.split(/\r?\n/).map(l => l.trim()).filter(Boolean)`. -/
def contentLines (raw : Str) : List Str :=
  ((splitLines raw).map trimStr).filter (fun l => !l.isEmpty)

/-- `readLabels` of `csvManifest.ts` (textually identical to
`readBulkManifestLabels` of `bulkManifest.ts`): parse the manifest file into a
filename→label map.  A missing file yields the empty map; the first non-blank
line is skipped when it starts with `filename,`; the remaining rows accumulate
into a JavaScript `Map` via `set` (last binding wins). -/
def readLabels (raw? : Option Str) : List (Str × Str) :=
  match raw? with
  | none => []
  | some raw =>
    let lines := contentLines raw
    let dataLines :=
      match lines with
      | [] => []
      | l0 :: rest => if isHeaderLine l0 then rest else l0 :: rest
    dataLines.foldl
      (fun m line =>
        match parseEntryLine line with
        | some fl => mapSet m fl.1 fl.2
        | none => m)
      []

/-- `ensureHeader`: a missing or all-whitespace manifest file is replaced by
the bare header; any other content is left alone.  Returns the file content
after the call (afterwards the file always exists). -/
def ensureHeader (raw? : Option Str) : Str :=
  match raw? with
  | none => headerLine ++ ['\n']
  | some raw => if (trimStr raw).isEmpty then headerLine ++ ['\n'] else raw

/-- `fileEndsWithNewline`: `false` for a missing or empty file, otherwise
whether the last character is a newline. -/
def endsWithNewline (raw : Str) : Bool :=
  raw.getLast? == some '\n'

/-- `appendIfMissing` of `csvManifest.ts` (same logic as
`appendBulkPendingIfMissing` of `bulkManifest.ts`): look the filename up in
the freshly-read map; if present return its label and leave the file
untouched, otherwise ensure the header and append a `filename,pending` line,
prefixed by a newline when the file does not already end in one.  Returns the
file content after the call together with the label reported to the caller. -/
def appendIfMissing (raw? : Option Str) (filename : Str) : Option Str × Str :=
  match mapGet (readLabels raw?) filename with
  | some existing => (raw?, existing)
  | none =>
    let base := ensureHeader raw?
    let sep : Str := if endsWithNewline base then [] else ['\n']
    (some (base ++ sep ++ filename ++ ',' :: pendingLabel ++ ['\n']), pendingLabel)

/-- One row as scanned by `upsertLabel` / `removeEntry`: blank lines, lines
starting with `filename,` (at any position in the file), comma-free lines and
rows whose filename part trims to nothing are dropped; the label part may be
empty and is kept. -/
def parseRowKeep (line : Str) : Option (Str × Str) :=
  if line.isEmpty then none
  else if isHeaderLine line then none
  else
    match splitAtComma line with
    | none => none
    | some (a, b) =>
      let f := trimStr a
      if f.isEmpty then none else some (f, trimStr b)

/-- The ordered list of rows `upsertLabel` / `removeEntry` rebuild the file
from (duplicate filenames are preserved). -/
def scanRows (raw : Str) : List (Str × Str) :=
  ((splitLines raw).map trimStr).filterMap parseRowKeep

/-- JavaScript `Array.prototype.join`. -/
def joinWith (sep : Str) : List Str → Str
  | [] => []
  | [x] => x
  | x :: y :: xs => x ++ sep ++ joinWith sep (y :: xs)

/-- `out.join('\n') + '\n'` with `out = ['filename,label', ...rows]`. -/
def serializeRows (rows : List (Str × Str)) : Str :=
  joinWith ['\n'] (headerLine :: rows.map (fun kv => kv.1 ++ ',' :: kv.2)) ++ ['\n']

/-- The row rewrite performed by `upsertLabel`: replace the label of every
scanned row whose filename matches, appending the binding when no row
matched. -/
def upsertRows (rows : List (Str × Str)) (filename label : Str) : List (Str × Str) :=
  if rows.any (fun kv => kv.1 == filename) then
    rows.map (fun kv => if kv.1 = filename then (filename, label) else kv)
  else rows ++ [(filename, label)]

/-- `upsertLabel` of `csvManifest.ts` (same logic as `upsertBulkManifestLabel`
of `bulkManifest.ts`): ensure the header, scan all rows, and rewrite the whole
file as the header plus the updated rows. -/
def upsertLabel (raw? : Option Str) (filename label : Str) : Option Str × Str :=
  let base := ensureHeader raw?
  (some (serializeRows (upsertRows (scanRows base) filename label)), label)

/-- `removeEntry` of `csvManifest.ts` (same logic as `removeBulkManifestEntry`
of `bulkManifest.ts`): drop every scanned row whose filename matches and
rewrite the file — but only when a row actually matched; a missing file or no
match leaves the state untouched and reports `false`. -/
def removeEntry (raw? : Option Str) (filename : Str) : Option Str × Bool :=
  match raw? with
  | none => (none, false)
  | some raw =>
    let rows := scanRows raw
    if rows.any (fun kv => kv.1 == filename) then
      (some (serializeRows (rows.filter (fun kv => !(kv.1 == filename)))), true)
    else (some raw, false)

/-- `cleanOrphans` of `csvManifest.ts` (same logic as `cleanBulkOrphanEntries`
of `bulkManifest.ts`): walk the freshly-read map; entries whose backing file
exists in `dir` are kept with their label, the rest are recorded as removed.
The file is rewritten (header plus kept rows) only when something was
removed.  Returns the file content after the call and the
`{removed, kept}` result. -/
def cleanOrphans (raw? : Option Str) (dir : List Str) : Option Str × (List Str × Nat) :=
  let labels := readLabels raw?
  let removed := (labels.filter (fun kv => !(dir.contains kv.1))).map (fun kv => kv.1)
  let kept := labels.filter (fun kv => dir.contains kv.1)
  if removed.isEmpty then (raw?, (removed, kept.length))
  else (some (serializeRows kept), (removed, kept.length))

/-! ## The tiered classifier (`src/lib/llmAnalyzer.ts`) -/

/-- Stage-1 labels (`BasicDecision['label']`). -/
inductive S1Label
  | good_fit
  | bad_fit
deriving DecidableEq, Repr

/-- A Stage-1 `BasicDecision`. -/
structure BasicDecision where
  label : S1Label
  reason : String
deriving DecidableEq

/-- A `Stage2Decision`. -/
structure Stage2Decision where
  exceeds : Bool
  reason : String
deriving DecidableEq

/-- A `Stage3Decision`. -/
structure Stage3Decision where
  elite : Bool
  reason : String
deriving DecidableEq

/-- `TieredLabel` of `llmAnalyzer.ts`. -/
inductive TieredLabel
  | bad_fit
  | good_fit
  | very_good
  | perfect
deriving DecidableEq, Repr

/-- The LLM's responses for one (condition, resume-text) pair: the `n`-th
Stage-1 call (strict mode performs a second, independent one), the Stage-2 and
Stage-3 calls, and the name-extraction call (whose catch-with-`"Unknown"`
fallback is folded into the returned string).  Quantifying over oracles
quantifies over every condition and resume text and every LLM behaviour that
returns shape-valid stage decisions; network and protocol failures are outside
this model. -/
structure LlmOracle where
  stage1 : Nat → BasicDecision
  stage2 : Stage2Decision
  stage3 : Stage3Decision
  extractedName : String

/-- The `STRICT_MODE` / `TIERED_MODE` environment toggles. -/
structure AnalyzerConfig where
  strictMode : Bool
  tieredMode : Bool

/-- How many LLM calls of each kind a classifier run performed. -/
structure CallCounts where
  stage1 : Nat
  stage2 : Nat
  stage3 : Nat
  nameExtractions : Nat
deriving DecidableEq, Repr

/-- An `AnalyzeDecision`. -/
structure AnalyzeDecision where
  label : TieredLabel
  reason : String
  candidateName : Option String
deriving DecidableEq

/-- One classifier run: the decision returned plus the calls performed. -/
structure AnalyzeRun where
  decision : AnalyzeDecision
  counts : CallCounts
deriving DecidableEq

/-- `MIN_MEANINGFUL_TEXT_LENGTH` of `llmAnalyzer.ts`. -/
def MIN_MEANINGFUL_TEXT_LENGTH : Nat := 100

/-- `text.replace(/\s+/g, '').length` — the meaningful-character count checked
by `extractPdfText`. -/
def meaningfulLength (text : Str) : Nat :=
  (text.filter (fun c => !isWsChar c)).length

/-- `ScannedPdfError`: raised by `extractPdfText` when the de-whitespaced text
is shorter than `MIN_MEANINGFUL_TEXT_LENGTH`; carries the extracted length.
This deterministic failure is distinct from every content-based rejection,
which is an ordinary `bad_fit` decision. -/
inductive AnalyzeErr
  | scannedPdf (extractedLength : Nat)
deriving DecidableEq, Repr

/-- Rendering of a Stage-1 label into the literal used in reason strings. -/
def s1LabelString : S1Label → String
  | .good_fit => "good_fit"
  | .bad_fit => "bad_fit"

/-- The tail of `analyzeResumePdf` once Stage 1 (and its strict verification)
has passed (source lines 384-440): extract the candidate name, stop at
`good_fit` when tiering is disabled, otherwise run Stage 2 and, on
`exceeds = true`, Stage 3. -/
def classifyFromPassed (cfg : AnalyzerConfig) (o : LlmOracle) (s1Calls : Nat)
    (s1Reason : String) : AnalyzeRun :=
  let candidateName := o.extractedName
  if !cfg.tieredMode then
    { decision := { label := .good_fit, reason := s1Reason,
                    candidateName := some candidateName },
      counts := ⟨s1Calls, 0, 0, 1⟩ }
  else
    let stage2Result := o.stage2
    if !stage2Result.exceeds then
      { decision := { label := .good_fit,
                      reason := "Meets criteria. " ++ stage2Result.reason,
                      candidateName := some candidateName },
        counts := ⟨s1Calls, 1, 0, 1⟩ }
    else
      let stage3Result := o.stage3
      if !stage3Result.elite then
        { decision := { label := .very_good,
                        reason := "Exceeds expectations. " ++ stage2Result.reason,
                        candidateName := some candidateName },
          counts := ⟨s1Calls, 1, 1, 1⟩ }
      else
        { decision := { label := .perfect,
                        reason := "Exceptional candidate. " ++ stage3Result.reason,
                        candidateName := some candidateName },
          counts := ⟨s1Calls, 1, 1, 1⟩ }

/-- The staged pipeline of `analyzeResumePdf` after successful text extraction
(source lines 355-440): Stage 1, the strict-mode dual pass, and the gated
Stage 2 / Stage 3 evaluation. -/
def classifyStages (cfg : AnalyzerConfig) (o : LlmOracle) : AnalyzeRun :=
  let stage1Result := o.stage1 0
  if cfg.strictMode ∧ stage1Result.label = S1Label.good_fit then
    let verify := o.stage1 1
    if verify.label = S1Label.good_fit then
      classifyFromPassed cfg o 2 stage1Result.reason
    else
      { decision := { label := .bad_fit,
                      reason := "Failed strict verification. Pass 1: good_fit. Pass 2: "
                        ++ s1LabelString verify.label ++ " - " ++ verify.reason,
                      candidateName := none },
        counts := ⟨2, 0, 0, 0⟩ }
  else if stage1Result.label = S1Label.bad_fit then
    { decision := { label := .bad_fit, reason := stage1Result.reason,
                    candidateName := none },
      counts := ⟨1, 0, 0, 0⟩ }
  else
    classifyFromPassed cfg o 1 stage1Result.reason

/-- `analyzeResumePdf` (source lines 344-440): text extraction is modelled by
its result `text`; below the meaningful-length threshold the run fails with
`ScannedPdfError` before any LLM call, otherwise the staged pipeline runs. -/
def analyzeResumePdf (cfg : AnalyzerConfig) (o : LlmOracle) (text : Str) :
    Except AnalyzeErr AnalyzeRun :=
  if meaningfulLength text < MIN_MEANINGFUL_TEXT_LENGTH then
    .error (.scannedPdf (meaningfulLength text))
  else
    .ok (classifyStages cfg o)

/-! ## The bulk analysis job runner (`src/lib/bulkAnalysisPipeline.ts`) -/

/-- The rendering of a `TieredLabel` into its manifest status token. -/
def tieredLabelStr : TieredLabel → Str
  | .bad_fit => badFitLabel
  | .good_fit => goodFitLabel
  | .very_good => veryGoodLabel
  | .perfect => perfectLabel

/-- The manifest as seen through `readBulkManifestLabels` (a filename→label
map with unique keys). -/
abbrev BulkLabels := List (Str × Str)

/-- No LLM calls. -/
def zeroCounts : CallCounts := ⟨0, 0, 0, 0⟩

/-- What one `runJob` execution did: the manifest map afterwards, the LLM
calls performed, and (ghost) whether the admission gate let the job through. -/
structure RunJobResult where
  manifest : BulkLabels
  counts : CallCounts
  processed : Bool
deriving DecidableEq

/-- Whether `runJob`'s admission gate lets a job with this current label
through: `current && !['pending', 'in_progress'].includes(current)` means
skip, so processing requires an absent, `pending` or `in_progress` label
(stored labels are never the empty string, so falsiness is absence). -/
def gateAdmits (current : Option Str) : Prop :=
  current = none ∨ current = some pendingLabel ∨ current = some inProgressLabel

instance (current : Option Str) : Decidable (gateAdmits current) := by
  unfold gateAdmits; infer_instance

/-- `runJob` of `bulkAnalysisPipeline.ts` (source lines 67-139) at the
manifest-map level: skip (unchanged manifest, no calls) when the current label
is present and neither `pending` nor `in_progress`; otherwise record
`in_progress`, run `analyzeResumePdf`, and record the decision's label — or
`bad_fit` without any LLM call when extraction failed with `ScannedPdfError`.
The transient-error edge (reset to `pending`) is outside this model because
the oracle returns shape-valid decisions; the candidate-name side store and
SSE notifications carry no manifest state and are omitted. -/
def runJob (m : BulkLabels) (filename : Str) (cfg : AnalyzerConfig)
    (o : LlmOracle) (text : Str) : RunJobResult :=
  let current := mapGet m filename
  if gateAdmits current then
    let m1 := mapSet m filename inProgressLabel
    match analyzeResumePdf cfg o text with
    | .ok r =>
        { manifest := mapSet m1 filename (tieredLabelStr r.decision.label),
          counts := r.counts, processed := true }
    | .error (.scannedPdf _) =>
        { manifest := mapSet m1 filename badFitLabel,
          counts := zeroCounts, processed := true }
  else
    { manifest := m, counts := zeroCounts, processed := false }

/-- The reason tag recorded by `trackRejected` in the single-file analysis
pipeline: a content-based rejection is tagged `bad_fit`, a scanned/image PDF
is tagged `scan_failed` (`rejectedTracker`'s `RejectedCandidate['reason']`). -/
inductive RejectTag
  | bad_fit
  | scan_failed
deriving DecidableEq, Repr

/-- Result of the single-file pipeline's `runJob`, additionally recording the
reason tag passed to `trackRejected` (if any). -/
structure SingleRunResult where
  manifest : BulkLabels
  counts : CallCounts
  processed : Bool
  trackedTag : Option RejectTag
deriving DecidableEq

/-- `runJob` of the single-file analysis pipeline (the resume-watcher flow):
same admission gate, but the tiered decision collapses to
`good_fit`/`bad_fit`, and rejections are tracked with a reason tag —
`bad_fit` for a content-based rejection, `scan_failed` when extraction raised
`ScannedPdfError` (which is finalized as `bad_fit` and, per the source
comment, deliberately not retried). -/
def runJobSingle (m : BulkLabels) (filename : Str) (cfg : AnalyzerConfig)
    (o : LlmOracle) (text : Str) : SingleRunResult :=
  let current := mapGet m filename
  if gateAdmits current then
    let m1 := mapSet m filename inProgressLabel
    match analyzeResumePdf cfg o text with
    | .ok r =>
        let finalLabel := if r.decision.label = TieredLabel.good_fit
                          then goodFitLabel else badFitLabel
        { manifest := mapSet m1 filename finalLabel,
          counts := r.counts, processed := true,
          trackedTag := if finalLabel = badFitLabel then some .bad_fit else none }
    | .error (.scannedPdf _) =>
        { manifest := mapSet m1 filename badFitLabel,
          counts := zeroCounts, processed := true,
          trackedTag := some .scan_failed }
  else
    { manifest := m, counts := zeroCounts, processed := false, trackedTag := none }

/-! ## The bounded-concurrency queue (`drain` / `enqueueBulkPdfAnalysis`) -/

/-- Scheduler state: the waiting queue, the number of running jobs
(`runningCount`), and a ghost log of the jobs handed to `runJob` in admission
order. -/
structure QueueState (J : Type) where
  queue : List J
  running : Nat
  started : List J

/-- The `while` loop of `drain` (source lines 51-65): while a concurrency slot
is free and the queue is non-empty, shift the front job and start it. -/
def drainGo (maxConc : Nat) : List J → Nat → List J → QueueState J
  | [], running, started => ⟨[], running, started⟩
  | j :: rest, running, started =>
    if running < maxConc then drainGo maxConc rest (running + 1) (started ++ [j])
    else ⟨j :: rest, running, started⟩

/-- `drain`. -/
def drain (maxConc : Nat) (s : QueueState J) : QueueState J :=
  drainGo maxConc s.queue s.running s.started

/-- The scheduler's external events: `enqueueBulkPdfAnalysis` pushes a job and
drains; a running job's `.finally` decrements `runningCount` and drains.  In
the source a completion always belongs to a started job, so `running` is then
positive; the model is total via truncated subtraction. -/
inductive QueueEvent (J : Type)
  | enqueue (job : J)
  | complete

/-- One scheduler step. -/
def queueStep (maxConc : Nat) (s : QueueState J) : QueueEvent J → QueueState J
  | .enqueue j => drain maxConc { s with queue := s.queue ++ [j] }
  | .complete => drain maxConc { s with running := s.running - 1 }

/-- The initial scheduler state (empty queue, nothing running). -/
def initQueueState (J : Type) : QueueState J := ⟨[], 0, []⟩

/-- The scheduler state after a sequence of events from the initial state. -/
def runQueue (maxConc : Nat) (events : List (QueueEvent J)) : QueueState J :=
  events.foldl (queueStep maxConc) (initQueueState J)

/-- The jobs enqueued by a sequence of events, in order. -/
def enqueuedJobs : List (QueueEvent J) → List J :=
  List.filterMap (fun e => match e with
    | .enqueue j => some j
    | .complete => none)

/-! ## LLM JSON response parsing (`parseJsonResponse`, lines 210-218) -/

/-- JSON values.  Numbers are modelled as integers: the stage decisions parsed
by the classifier contain only booleans and strings, and no claim depends on
fractional numerics. -/
inductive Json
  | null
  | bool (b : Bool)
  | num (n : Int)
  | str (s : Str)
  | arr (xs : List Json)
  | obj (kvs : List (Str × Json))

/-- JSON insignificant whitespace (space, tab, newline, carriage return). -/
def isJsonWs (c : Char) : Bool :=
  c = ' ' || c = '\t' || c = '\n' || c = '\r'

/-- Skip insignificant whitespace. -/
def skipJsonWs (s : Str) : Str := s.dropWhile isJsonWs

/-- The unescaped character for a JSON string escape (the `\uXXXX` form is not
modelled; the texts handled here do not use it). -/
def unescape (c : Char) : Option Char :=
  if c = '"' then some '"'
  else if c = '\\' then some '\\'
  else if c = '/' then some '/'
  else if c = 'n' then some '\n'
  else if c = 't' then some '\t'
  else if c = 'r' then some '\r'
  else if c = 'b' then some '\x08'
  else if c = 'f' then some '\x0c'
  else none

/-- Parse the body of a JSON string after its opening quote, returning the
decoded characters and the remainder after the closing quote. -/
def parseStringBody : Str → Option (Str × Str)
  | [] => none
  | '"' :: rest => some ([], rest)
  | '\\' :: e :: rest =>
    match unescape e with
    | none => none
    | some c => (parseStringBody rest).map (fun p => (c :: p.1, p.2))
  | c :: rest => (parseStringBody rest).map (fun p => (c :: p.1, p.2))

/-- The value of a non-empty digit run. -/
def natOfDigits (ds : Str) : Nat :=
  ds.foldl (fun n c => 10 * n + (c.toNat - 48)) 0

/-- Parse a non-empty run of decimal digits. -/
def parseDigits (s : Str) : Option (Nat × Str) :=
  let ds := s.takeWhile Char.isDigit
  if ds.isEmpty then none else some (natOfDigits ds, s.drop ds.length)

/-- Parse a JSON number (integer form). -/
def parseNumber (s : Str) : Option (Json × Str) :=
  match s with
  | '-' :: rest => (parseDigits rest).map (fun p => (Json.num (-(p.1 : Int)), p.2))
  | _ => (parseDigits s).map (fun p => (Json.num (p.1 : Int), p.2))

mutual

/-- Fuel-bounded recursive-descent JSON value parser; returns the parsed value
and the unconsumed remainder.  Each unit of fuel is spent only after consuming
at least one character, so `length + 1` fuel always suffices. -/
def parseValue (fuel : Nat) (s : Str) : Option (Json × Str) :=
  match fuel with
  | 0 => none
  | fuel + 1 =>
    let s1 := skipJsonWs s
    match s1 with
    | [] => none
    | c :: rest =>
      if c = '\x7b' then
        match skipJsonWs rest with
        | '\x7d' :: r2 => some (Json.obj [], r2)
        | _ => (parseMembers fuel rest).map (fun p => (Json.obj p.1, p.2))
      else if c = '[' then
        match skipJsonWs rest with
        | ']' :: r2 => some (Json.arr [], r2)
        | _ => (parseItems fuel rest).map (fun p => (Json.arr p.1, p.2))
      else if c = '"' then
        (parseStringBody rest).map (fun p => (Json.str p.1, p.2))
      else if "true".data.isPrefixOf s1 then some (Json.bool true, s1.drop 4)
      else if "false".data.isPrefixOf s1 then some (Json.bool false, s1.drop 5)
      else if "null".data.isPrefixOf s1 then some (Json.null, s1.drop 4)
      else parseNumber s1

/-- Parse the members of an object after its opening brace (at least one). -/
def parseMembers (fuel : Nat) (s : Str) : Option (List (Str × Json) × Str) :=
  match fuel with
  | 0 => none
  | fuel + 1 =>
    match skipJsonWs s with
    | '"' :: rest =>
      match parseStringBody rest with
      | none => none
      | some (key, r1) =>
        match skipJsonWs r1 with
        | ':' :: r2 =>
          match parseValue fuel r2 with
          | none => none
          | some (v, r3) =>
            match skipJsonWs r3 with
            | ',' :: r4 =>
              (parseMembers fuel r4).map (fun p => ((key, v) :: p.1, p.2))
            | '\x7d' :: r4 => some ([(key, v)], r4)
            | _ => none
        | _ => none
    | _ => none

/-- Parse the items of an array after its opening bracket (at least one). -/
def parseItems (fuel : Nat) (s : Str) : Option (List Json × Str) :=
  match fuel with
  | 0 => none
  | fuel + 1 =>
    match parseValue fuel s with
    | none => none
    | some (v, r1) =>
      match skipJsonWs r1 with
      | ',' :: r2 => (parseItems fuel r2).map (fun p => (v :: p.1, p.2))
      | ']' :: r2 => some ([v], r2)
      | _ => none

end

/-- Model of `JSON.parse(text)`: the text parses iff it is a single JSON value
surrounded only by whitespace. -/
def jsonParse (text : Str) : Option Json :=
  match parseValue (text.length + 1) text with
  | some (v, rest) => if (skipJsonWs rest).isEmpty then some v else none
  | none => none

/-- The index of the last occurrence of `c`. -/
def lastIdxOf (c : Char) (s : Str) : Option Nat :=
  match s.reverse.findIdx? (fun x => x == c) with
  | none => none
  | some k => some (s.length - 1 - k)

/-- The semantics of `text.match(/\x7b[\s\S]*\x7d/)`: the regex is unanchored
and `[\s\S]*` is greedy, so a match exists iff a closing brace occurs after an
opening brace, and the (unique) match runs from the first opening brace to the
last closing brace of the whole text. -/
def braceSpan (text : Str) : Option Str :=
  match text.findIdx? (fun x => x == '\x7b'), lastIdxOf '\x7d' text with
  | some i, some j => if i < j then some ((text.drop i).take (j - i + 1)) else none
  | _, _ => none

/-- The two failure modes of `parseJsonResponse`: the regex found no object
span (`throw new Error('LLM output was not valid JSON')`), or `JSON.parse` of
the span itself threw. -/
inductive ParseErr
  | notJson
  | spanNotJson
deriving DecidableEq, Repr

/-- `parseJsonResponse` (source lines 210-218): strict `JSON.parse` first; on
failure, retry `JSON.parse` on the `/\x7b[\s\S]*\x7d/` match (first opening
brace through last closing brace); throw when the regex has no match or the
matched span fails to parse as well. -/
def parseJsonResponse (text : Str) : Except ParseErr Json :=
  match jsonParse text with
  | some v => .ok v
  | none =>
    match braceSpan text with
    | none => .error .notJson
    | some sp =>
      match jsonParse sp with
      | some v => .ok v
      | none => .error .spanNotJson

/-- Whether a `parseJsonResponse` outcome is a failure. -/
def isParseError : Except ParseErr Json → Bool
  | .error _ => true
  | .ok _ => false

/-- Modelled from the spec's words for claim C4 (`extracting the first
balanced JSON object substring`): scan to the first opening brace and take the
substring through the brace that balances it (naive brace counting). -/
def balancedScan : Str → Nat → Str → Option Str
  | [], _, _ => none
  | c :: rest, depth, acc =>
    if c = '\x7b' then balancedScan rest (depth + 1) (c :: acc)
    else if c = '\x7d' then
      if depth = 1 then some (c :: acc).reverse
      else balancedScan rest (depth - 1) (c :: acc)
    else balancedScan rest depth (c :: acc)

/-- Modelled from the spec's words for claim C4: the first balanced JSON
object substring of a text. -/
def firstBalancedObject : Str → Option Str
  | [] => none
  | c :: rest =>
    if c = '\x7b' then balancedScan rest 1 [c] else firstBalancedObject rest

/-! ## Filename identity codec (`parseIdsFromFilename`, `src/lib/utils.ts`) -/

/-- A character of the `[a-f0-9]` class under the `i` flag. -/
def isHexChar (c : Char) : Bool :=
  (97 ≤ c.toNat && c.toNat ≤ 102) || (65 ≤ c.toNat && c.toNat ≤ 70)
    || (48 ≤ c.toNat && c.toNat ≤ 57)

/-- The `UUID_REGEX` of `utils.ts` (under the `i` flag): five
hyphen-separated hex groups of lengths 8, 4, 4, 4 and 12. -/
def isUuid (s : Str) : Bool :=
  match splitOnChar '-' s with
  | [a, b, c, d, e] =>
    a.length == 8 && b.length == 4 && c.length == 4 && d.length == 4
      && e.length == 12 && (a ++ b ++ c ++ d ++ e).all isHexChar
  | _ => false

/-- The end-anchored pattern `__(<uuid>)__(<uuid>)\.pdf$` applied to an
80-character tail: positions 0-1 and 38-39 hold `__`, positions 2-37 and
40-75 hold the two capture groups, positions 76-79 hold `.pdf`
(case-insensitive). -/
def suffixIds (tail : Str) : Option (Str × Str) :=
  let u1 := (tail.drop 2).take 36
  let u2 := (tail.drop 40).take 36
  if tail.take 2 = "__".data ∧ (tail.drop 38).take 2 = "__".data
      ∧ lowerStr (tail.drop 76) = ".pdf".data ∧ isUuid u1 ∧ isUuid u2
  then some (u1, u2) else none

/-- `parseIdsFromFilename` of `utils.ts`: match
`__(<uuid>)__(<uuid>)\.pdf$` case-insensitively — the pattern has fixed
length 80 and is anchored at the end, so it matches iff the last 80
characters have that shape; on success the two capture groups are returned,
otherwise the identity is null (`none`). -/
def parseIdsFromFilename (filename : Str) : Option (Str × Str) :=
  if filename.length < 80 then none
  else suffixIds (filename.drop (filename.length - 80))

/-- The filename convention of the spec (§6): some display-name part followed
by `__<uuid>__<uuid>` and the `.pdf` extension, case-insensitively. -/
def FollowsConvention (filename u1 u2 : Str) : Prop :=
  ∃ p ext, filename = p ++ "__".data ++ u1 ++ "__".data ++ u2 ++ ext
    ∧ lowerStr ext = ".pdf".data ∧ isUuid u1 = true ∧ isUuid u2 = true

/-! ## Shared helper lemmas -/

/-- A successful extraction admits the staged pipeline. -/
theorem analyzeResumePdf_ok (cfg : AnalyzerConfig) (o : LlmOracle) (text : Str)
    (h : ¬ meaningfulLength text < MIN_MEANINGFUL_TEXT_LENGTH) :
    analyzeResumePdf cfg o text = .ok (classifyStages cfg o) := by
  simp [analyzeResumePdf, h]

/-- Setting a key makes it readable. -/
theorem mapGet_mapSet_self (m : List (Str × Str)) (k v : Str) :
    mapGet (mapSet m k v) k = some v := by
  induction m with
  | nil => simp [mapGet, mapSet]
  | cons head rest ih =>
    obtain ⟨k0, v0⟩ := head
    by_cases h : k0 = k
    · simp [mapSet, h, mapGet]
    · simp [mapSet, h, mapGet] at ih ⊢
      simpa [List.find?, h] using ih

/-- Setting a key does not disturb other keys. -/
theorem mapGet_mapSet_ne (m : List (Str × Str)) (k k' v : Str) (h : k ≠ k') :
    mapGet (mapSet m k v) k' = mapGet m k' := by
  have hb : (k == k') = false := beq_eq_false_iff_ne.mpr h
  induction m with
  | nil => simp [mapGet, mapSet, List.find?, hb]
  | cons head rest ih =>
    obtain ⟨k0, v0⟩ := head
    by_cases h0 : k0 = k
    · subst h0
      simp [mapSet, mapGet, List.find?, hb]
    · by_cases h1 : k0 = k'
      · subst h1
        simp [mapSet, mapGet, List.find?, h0]
      · have hb0 : (k0 == k') = false := beq_eq_false_iff_ne.mpr h1
        simp only [mapSet, if_neg h0, mapGet, List.find?, hb0] at ih ⊢
        exact ih

/-- Name extraction always reports a name once Stage 1 passed. -/
theorem classifyFromPassed_name (cfg : AnalyzerConfig) (o : LlmOracle) (n : Nat) (s : String) :
    (classifyFromPassed cfg o n s).decision.candidateName = some o.extractedName := by
  rcases cfg with ⟨strict, tiered⟩
  cases tiered <;> cases hx : o.stage2.exceeds <;> cases he : o.stage3.elite <;>
    simp [classifyFromPassed, hx, he]

/-- The Stage-2 / Stage-3 gating of the passed path, keyed by the call
counters. -/
theorem classifyFromPassed_parts (cfg : AnalyzerConfig) (o : LlmOracle) (n : Nat) (s : String) :
    (1 ≤ (classifyFromPassed cfg o n s).counts.stage2 → o.stage2.exceeds = false →
       (classifyFromPassed cfg o n s).decision.label = TieredLabel.good_fit)
    ∧ (1 ≤ (classifyFromPassed cfg o n s).counts.stage3 → o.stage3.elite = false →
       (classifyFromPassed cfg o n s).decision.label = TieredLabel.very_good)
    ∧ (1 ≤ (classifyFromPassed cfg o n s).counts.stage3 → o.stage3.elite = true →
       (classifyFromPassed cfg o n s).decision.label = TieredLabel.perfect ∧
       (classifyFromPassed cfg o n s).decision.candidateName.isSome = true) := by
  rcases cfg with ⟨strict, tiered⟩
  cases tiered <;> cases hx : o.stage2.exceeds <;> cases he : o.stage3.elite <;>
    simp [classifyFromPassed, hx, he]

/-- A classifier run either stops with `bad_fit` before Stage 2 (no Stage-2 or
Stage-3 call, no name), or it is the passed path. -/
theorem classifyStages_cases (cfg : AnalyzerConfig) (o : LlmOracle) :
    ((classifyStages cfg o).decision.label = TieredLabel.bad_fit ∧
     (classifyStages cfg o).counts.stage2 = 0 ∧ (classifyStages cfg o).counts.stage3 = 0 ∧
     (classifyStages cfg o).decision.candidateName = none)
    ∨ (∃ n, classifyStages cfg o = classifyFromPassed cfg o n (o.stage1 0).reason) := by
  by_cases hs : cfg.strictMode ∧ (o.stage1 0).label = S1Label.good_fit
  · by_cases hv : (o.stage1 1).label = S1Label.good_fit
    · right; exact ⟨2, by simp [classifyStages, hs, hv]⟩
    · left; simp [classifyStages, hs, hv]
  · by_cases hb : (o.stage1 0).label = S1Label.bad_fit
    · left; simp [classifyStages, hs, hb]
    · right; exact ⟨1, by simp [classifyStages, hs, hb]⟩

/-- A Stage-1 rejection stops the pipeline. -/
theorem classifyStages_bad (cfg : AnalyzerConfig) (o : LlmOracle)
    (hbad : (o.stage1 0).label = S1Label.bad_fit) :
    (classifyStages cfg o).decision.label = TieredLabel.bad_fit ∧
    (classifyStages cfg o).counts.stage2 = 0 ∧ (classifyStages cfg o).counts.stage3 = 0 := by
  have hns : ¬ (cfg.strictMode ∧ (o.stage1 0).label = S1Label.good_fit) := by
    rintro ⟨_, hg⟩
    rw [hbad] at hg
    exact S1Label.noConfusion hg
  simp [classifyStages, hns, hbad]

/-- A fixed oracle and configuration for witnesses. -/
def constOracle : LlmOracle :=
  ⟨fun _ => ⟨S1Label.good_fit, "ok"⟩, ⟨false, "no"⟩, ⟨false, "no"⟩, "Jane Doe"⟩

/-- A resume text comfortably above the meaningful-length threshold. -/
def longText : Str := List.replicate 100 'a'

/-- The default configuration (strict mode off, tiered mode on). -/
def defaultCfg : AnalyzerConfig := ⟨false, true⟩

/-! ## Claims -/

/-- C1: for every resume text and condition (quantified through the response
oracle), `analyzeResumePdf` is strictly gated: a Stage-1 `bad_fit` makes no
Stage-2 or Stage-3 call and yields `bad_fit`; a Stage-2 call answering
`exceeds = false` yields `good_fit`; a Stage-3 call answering `elite = false`
yields `very_good`; a Stage-3 call answering `elite = true` yields `perfect`
with a candidate name present. -/
theorem tiered_classifier_strictly_gated
    (cfg : AnalyzerConfig) (o : LlmOracle) (text : Str) (r : AnalyzeRun)
    (hlen : MIN_MEANINGFUL_TEXT_LENGTH ≤ meaningfulLength text)
    (hr : analyzeResumePdf cfg o text = .ok r) :
    ((o.stage1 0).label = S1Label.bad_fit →
       r.counts.stage2 = 0 ∧ r.counts.stage3 = 0 ∧ r.decision.label = TieredLabel.bad_fit)
    ∧ (1 ≤ r.counts.stage2 → o.stage2.exceeds = false →
       r.decision.label = TieredLabel.good_fit)
    ∧ (1 ≤ r.counts.stage3 → o.stage3.elite = false →
       r.decision.label = TieredLabel.very_good)
    ∧ (1 ≤ r.counts.stage3 → o.stage3.elite = true →
       r.decision.label = TieredLabel.perfect ∧ r.decision.candidateName.isSome = true) := by
  have hnl : ¬ meaningfulLength text < MIN_MEANINGFUL_TEXT_LENGTH := Nat.not_lt.mpr hlen
  rw [analyzeResumePdf, if_neg hnl] at hr
  injection hr with hr
  subst hr
  refine ⟨fun hbad => ?_, ?_, ?_, ?_⟩
  · obtain ⟨h1, h2, h3⟩ := classifyStages_bad cfg o hbad
    exact ⟨h2, h3, h1⟩
  · rcases classifyStages_cases cfg o with ⟨hl, h2, h3, hn⟩ | ⟨n, heq⟩
    · rw [h2]; intro h; exact absurd h (by decide)
    · rw [heq]; exact (classifyFromPassed_parts cfg o n _).1
  · rcases classifyStages_cases cfg o with ⟨hl, h2, h3, hn⟩ | ⟨n, heq⟩
    · rw [h3]; intro h; exact absurd h (by decide)
    · rw [heq]; exact (classifyFromPassed_parts cfg o n _).2.1
  · rcases classifyStages_cases cfg o with ⟨hl, h2, h3, hn⟩ | ⟨n, heq⟩
    · rw [h3]; intro h; exact absurd h (by decide)
    · rw [heq]; exact (classifyFromPassed_parts cfg o n _).2.2

/-- Witness for C1 at a concrete long text and oracle. -/
theorem tiered_classifier_strictly_gated_witness :
    MIN_MEANINGFUL_TEXT_LENGTH ≤ meaningfulLength longText
    ∧ analyzeResumePdf defaultCfg constOracle longText = .ok (classifyStages defaultCfg constOracle)
    ∧ (1 ≤ (classifyStages defaultCfg constOracle).counts.stage2 →
        constOracle.stage2.exceeds = false →
        (classifyStages defaultCfg constOracle).decision.label = TieredLabel.good_fit) :=
  ⟨by decide, analyzeResumePdf_ok defaultCfg constOracle longText (by decide),
   (tiered_classifier_strictly_gated defaultCfg constOracle longText
      (classifyStages defaultCfg constOracle) (by decide)
      (analyzeResumePdf_ok defaultCfg constOracle longText (by decide))).2.1⟩

/-- C2: an admitted analysis job whose filename currently carries a label
other than `pending`/`in_progress` performs no classification and leaves the
manifest untouched; a job is processed exactly when its current label is
absent, `pending` or `in_progress`. -/
theorem runJob_skips_terminal_labels (m : BulkLabels) (f : Str) (cfg : AnalyzerConfig)
    (o : LlmOracle) (text : Str) (cur : Str)
    (hcur : mapGet m f = some cur)
    (hp : cur ≠ pendingLabel) (hi : cur ≠ inProgressLabel) :
    runJob m f cfg o text = ⟨m, zeroCounts, false⟩
    ∧ ∀ (m' : BulkLabels), ((runJob m' f cfg o text).processed = true ↔ gateAdmits (mapGet m' f)) := by
  constructor
  · have hng : ¬ gateAdmits (mapGet m f) := by
      rw [hcur]
      rintro (h | h | h)
      · exact Option.noConfusion h
      · exact hp (Option.some.inj h)
      · exact hi (Option.some.inj h)
    simp [runJob, hng]
  · intro m'
    by_cases hg : gateAdmits (mapGet m' f)
    · rcases hana : analyzeResumePdf cfg o text with e | r
      · rcases e with ⟨n⟩
        simp [runJob, hg, hana]
      · simp [runJob, hg, hana]
    · simp [runJob, hg]

/-- Witness for C2: a `good_fit` entry is skipped. -/
theorem runJob_skips_terminal_labels_witness :
    mapGet [("done.pdf".data, goodFitLabel)] "done.pdf".data = some goodFitLabel
    ∧ goodFitLabel ≠ pendingLabel ∧ goodFitLabel ≠ inProgressLabel
    ∧ runJob [("done.pdf".data, goodFitLabel)] "done.pdf".data defaultCfg constOracle longText
        = ⟨[("done.pdf".data, goodFitLabel)], zeroCounts, false⟩ :=
  ⟨by decide, by decide, by decide,
   (runJob_skips_terminal_labels [("done.pdf".data, goodFitLabel)] "done.pdf".data
      defaultCfg constOracle longText goodFitLabel (by decide) (by decide) (by decide)).1⟩

/-- `drainGo` never pushes the running count past the ceiling. -/
theorem drainGo_running_le (maxConc : Nat) (q : List J) :
    ∀ r st, r ≤ maxConc → (drainGo maxConc q r st).running ≤ maxConc := by
  induction q with
  | nil => intro r st h; simpa [drainGo] using h
  | cons j rest ih =>
    intro r st h
    by_cases hr : r < maxConc
    · rw [drainGo, if_pos hr]
      exact ih (r + 1) (st ++ [j]) hr
    · rw [drainGo, if_neg hr]
      exact h

/-- `drainGo` moves jobs from the front of the queue to the end of the started
log: the combined sequence is unchanged. -/
theorem drainGo_log (maxConc : Nat) (q : List J) :
    ∀ r st, (drainGo maxConc q r st).started ++ (drainGo maxConc q r st).queue = st ++ q := by
  induction q with
  | nil => intro r st; simp [drainGo]
  | cons j rest ih =>
    intro r st
    by_cases hr : r < maxConc
    · rw [drainGo, if_pos hr]
      rw [ih (r + 1) (st ++ [j])]
      simp
    · rw [drainGo, if_neg hr]

/-- `drainGo` stops early only at the ceiling. -/
theorem drainGo_drained (maxConc : Nat) (q : List J) :
    ∀ r st, (drainGo maxConc q r st).queue ≠ [] → maxConc ≤ (drainGo maxConc q r st).running := by
  induction q with
  | nil => intro r st h; simp [drainGo] at h
  | cons j rest ih =>
    intro r st
    by_cases hr : r < maxConc
    · rw [drainGo, if_pos hr]
      exact ih (r + 1) (st ++ [j])
    · rw [drainGo, if_neg hr]
      intro _
      exact Nat.le_of_not_lt hr

/-- The scheduler invariant: the running count respects the ceiling, the
queue is empty unless every concurrency slot is full, and the started log
followed by the waiting queue is exactly the enqueued sequence. -/
def QueueInv (maxConc : Nat) (enq : List J) (s : QueueState J) : Prop :=
  s.running ≤ maxConc ∧ (s.queue ≠ [] → s.running = maxConc)
    ∧ s.started ++ s.queue = enq

/-- Each scheduler event preserves the invariant. -/
theorem queueStep_inv (maxConc : Nat) (s : QueueState J) (e : QueueEvent J)
    (enq : List J) (hinv : QueueInv maxConc enq s) :
    QueueInv maxConc (enq ++ enqueuedJobs [e]) (queueStep maxConc s e) := by
  obtain ⟨hle, hfull, hlog⟩ := hinv
  cases e with
  | enqueue j =>
    refine ⟨drainGo_running_le maxConc _ _ _ hle, fun hq => ?_, ?_⟩
    · exact Nat.le_antisymm
        (drainGo_running_le maxConc _ _ _ hle)
        (drainGo_drained maxConc _ _ _ hq)
    · have := drainGo_log maxConc (s.queue ++ [j]) s.running s.started
      simp only [queueStep, drain, enqueuedJobs, List.filterMap]
      rw [this, ← List.append_assoc, hlog]
  | complete =>
    have hle' : s.running - 1 ≤ maxConc := Nat.le_trans (Nat.sub_le _ _) hle
    refine ⟨drainGo_running_le maxConc _ _ _ hle', fun hq => ?_, ?_⟩
    · exact Nat.le_antisymm
        (drainGo_running_le maxConc _ _ _ hle')
        (drainGo_drained maxConc _ _ _ hq)
    · have := drainGo_log maxConc s.queue (s.running - 1) s.started
      simp only [queueStep, drain, enqueuedJobs, List.filterMap]
      rw [this, hlog]
      simp

/-- The invariant holds along every event sequence. -/
theorem runQueue_inv (maxConc : Nat) (events : List (QueueEvent J)) :
    QueueInv maxConc (enqueuedJobs events) (runQueue maxConc events) := by
  suffices h : ∀ (s : QueueState J) (enq : List J), QueueInv maxConc enq s →
      QueueInv maxConc (enq ++ enqueuedJobs events) (events.foldl (queueStep maxConc) s) by
    have hinit : QueueInv maxConc ([] : List J) (initQueueState J) := by
      refine ⟨Nat.zero_le _, fun hq => absurd rfl hq, rfl⟩
    simpa [runQueue] using h (initQueueState J) [] hinit
  induction events with
  | nil => intro s enq h; simpa [enqueuedJobs]
  | cons e rest ih =>
    intro s enq h
    have h1 := queueStep_inv maxConc s e enq h
    have h2 := ih (queueStep maxConc s e) (enq ++ enqueuedJobs [e]) h1
    have : enq ++ enqueuedJobs [e] ++ enqueuedJobs rest = enq ++ enqueuedJobs (e :: rest) := by
      cases e <;> simp [enqueuedJobs, List.filterMap]
    simpa [this] using h2

/-- C3: along every sequence of enqueue and job-completion events the running
count never exceeds the concurrency ceiling, the started log followed by the
waiting queue is exactly the enqueue sequence (jobs start in FIFO enqueue
order), and whenever a job remains queued every concurrency slot is occupied
(each completion immediately admits queued jobs up to the ceiling). -/
theorem bulk_queue_concurrency_ceiling (J : Type) (maxConc : Nat)
    (events : List (QueueEvent J)) (hpos : 1 ≤ maxConc) :
    (runQueue maxConc events).running ≤ maxConc
    ∧ (runQueue maxConc events).started ++ (runQueue maxConc events).queue = enqueuedJobs events
    ∧ ((runQueue maxConc events).queue ≠ [] → (runQueue maxConc events).running = maxConc) := by
  obtain ⟨h1, h2, h3⟩ := runQueue_inv maxConc events
  exact ⟨h1, h3, h2⟩

/-- Witness for C3: ten enqueues at ceiling 3 leave 3 running and 7 queued. -/
theorem bulk_queue_concurrency_ceiling_witness :
    1 ≤ 3
    ∧ (runQueue 3 (List.replicate 10 (QueueEvent.enqueue 0))).running ≤ 3
    ∧ ((runQueue 3 ((List.replicate 10 (QueueEvent.enqueue (0 : Nat))))).queue ≠ [] →
        (runQueue 3 (List.replicate 10 (QueueEvent.enqueue 0))).running = 3) :=
  ⟨by decide,
   (bulk_queue_concurrency_ceiling Nat 3 (List.replicate 10 (QueueEvent.enqueue 0)) (by decide)).1,
   (bulk_queue_concurrency_ceiling Nat 3 (List.replicate 10 (QueueEvent.enqueue 0)) (by decide)).2.2⟩

/-- C6: for a text below the meaningful-character threshold, an admitted job
makes zero LLM calls, `analyzeResumePdf` fails with the `ScannedPdfError`
marker (carrying the extracted length, distinguishable from every
content-based `bad_fit` decision), the job is finalized as `bad_fit` in both
the bulk and the single-file pipeline, the single-file pipeline tracks the
rejection with the `scan_failed` reason tag, and re-running the job afterwards
is a no-op (the outcome is never retried). -/
theorem scanned_pdf_short_circuit (m : BulkLabels) (f : Str) (cfg : AnalyzerConfig)
    (o : LlmOracle) (text : Str)
    (hshort : meaningfulLength text < MIN_MEANINGFUL_TEXT_LENGTH)
    (hgate : gateAdmits (mapGet m f)) :
    analyzeResumePdf cfg o text = .error (.scannedPdf (meaningfulLength text))
    ∧ (runJob m f cfg o text).counts = zeroCounts
    ∧ mapGet (runJob m f cfg o text).manifest f = some badFitLabel
    ∧ (runJobSingle m f cfg o text).counts = zeroCounts
    ∧ mapGet (runJobSingle m f cfg o text).manifest f = some badFitLabel
    ∧ (runJobSingle m f cfg o text).trackedTag = some RejectTag.scan_failed
    ∧ (∀ (cfg2 : AnalyzerConfig) (o2 : LlmOracle) (text2 : Str),
        runJob (runJob m f cfg o text).manifest f cfg2 o2 text2
          = ⟨(runJob m f cfg o text).manifest, zeroCounts, false⟩) := by
  have hana : analyzeResumePdf cfg o text = .error (.scannedPdf (meaningfulLength text)) := by
    simp [analyzeResumePdf, hshort]
  have hget : mapGet (mapSet (mapSet m f inProgressLabel) f badFitLabel) f = some badFitLabel :=
    mapGet_mapSet_self _ f badFitLabel
  have hrun : runJob m f cfg o text
      = ⟨mapSet (mapSet m f inProgressLabel) f badFitLabel, zeroCounts, true⟩ := by
    simp [runJob, hgate, hana]
  have hruns : (runJobSingle m f cfg o text).manifest
        = mapSet (mapSet m f inProgressLabel) f badFitLabel
      ∧ (runJobSingle m f cfg o text).counts = zeroCounts
      ∧ (runJobSingle m f cfg o text).trackedTag = some RejectTag.scan_failed := by
    refine ⟨?_, ?_, ?_⟩ <;> simp [runJobSingle, hgate, hana]
  refine ⟨hana, by rw [hrun], by rw [hrun]; exact hget, hruns.2.1, ?_, hruns.2.2, ?_⟩
  · rw [hruns.1]; exact hget
  · intro cfg2 o2 text2
    rw [hrun]
    have hng : ¬ gateAdmits (mapGet (mapSet (mapSet m f inProgressLabel) f badFitLabel) f) := by
      simp only [gateAdmits, hget]
      rintro (h | h | h)
      · exact Option.noConfusion h
      · exact absurd (Option.some.inj h) (by decide)
      · exact absurd (Option.some.inj h) (by decide)
    simp [runJob, hng]

/-- Witness for C6: the empty text on a pending entry. -/
theorem scanned_pdf_short_circuit_witness :
    meaningfulLength [] < MIN_MEANINGFUL_TEXT_LENGTH
    ∧ gateAdmits (mapGet [("scan.pdf".data, pendingLabel)] "scan.pdf".data)
    ∧ analyzeResumePdf defaultCfg constOracle [] = .error (.scannedPdf (meaningfulLength []))
    ∧ mapGet (runJob [("scan.pdf".data, pendingLabel)] "scan.pdf".data defaultCfg constOracle []).manifest
        "scan.pdf".data = some badFitLabel
    ∧ (runJobSingle [("scan.pdf".data, pendingLabel)] "scan.pdf".data defaultCfg constOracle []).trackedTag
        = some RejectTag.scan_failed :=
  ⟨by decide, by decide,
   (scanned_pdf_short_circuit [("scan.pdf".data, pendingLabel)] "scan.pdf".data
      defaultCfg constOracle [] (by decide) (by decide)).1,
   (scanned_pdf_short_circuit [("scan.pdf".data, pendingLabel)] "scan.pdf".data
      defaultCfg constOracle [] (by decide) (by decide)).2.2.1,
   (scanned_pdf_short_circuit [("scan.pdf".data, pendingLabel)] "scan.pdf".data
      defaultCfg constOracle [] (by decide) (by decide)).2.2.2.2.2.1⟩

/-! ## String toolkit lemmas -/

/-- `splitOnChar` always yields at least one piece. -/
theorem splitOnChar_ne_nil (sep : Char) (s : Str) : splitOnChar sep s ≠ [] := by
  induction s with
  | nil => simp [splitOnChar]
  | cons c rest ih =>
    by_cases h : c = sep
    · simp [splitOnChar, h]
    · simp only [splitOnChar, if_neg h]
      rcases htail : splitOnChar sep rest with _ | ⟨piece, t⟩
      · exact absurd htail ih
      · simp

/-- Splitting distributes over a separator occurrence. -/
theorem splitOnChar_append (sep : Char) (a b : Str) :
    splitOnChar sep (a ++ sep :: b) = splitOnChar sep a ++ splitOnChar sep b := by
  induction a with
  | nil => simp [splitOnChar]
  | cons c a ih =>
    by_cases h : c = sep
    · simp [splitOnChar, h, ih]
    · rcases ha : splitOnChar sep a with _ | ⟨piece, t⟩
      · exact absurd ha (splitOnChar_ne_nil sep a)
      · have ih' : splitOnChar sep (a ++ sep :: b) = piece :: (t ++ splitOnChar sep b) := by
          rw [ih, ha]
          simp
        simp [splitOnChar, if_neg h, ih', ha]

/-- A separator-free string is a single piece. -/
theorem splitOnChar_no_sep (sep : Char) (a : Str) (h : sep ∉ a) :
    splitOnChar sep a = [a] := by
  induction a with
  | nil => simp [splitOnChar]
  | cons c rest ih =>
    have hc : ¬ c = sep := fun hc => h (hc ▸ List.mem_cons_self c rest)
    have hrest : sep ∉ rest := fun hr => h (List.mem_cons_of_mem c hr)
    simp only [splitOnChar, if_neg hc, ih hrest]

/-- Pieces contain no separator. -/
theorem splitOnChar_pieces_no_sep (sep : Char) (s : Str) :
    ∀ piece ∈ splitOnChar sep s, sep ∉ piece := by
  induction s with
  | nil =>
    intro piece hmem
    simp [splitOnChar] at hmem
    simp [hmem]
  | cons c rest ih =>
    intro piece hmem
    by_cases h : c = sep
    · rw [splitOnChar, if_pos h] at hmem
      rcases List.mem_cons.mp hmem with hmem | hmem
      · simp [hmem]
      · exact ih piece hmem
    · rcases htail : splitOnChar sep rest with _ | ⟨p0, t⟩
      · exact absurd htail (splitOnChar_ne_nil sep rest)
      · rw [splitOnChar, if_neg h, htail] at hmem
        rcases List.mem_cons.mp hmem with hmem | hmem
        · subst hmem
          intro hsep
          rcases List.mem_cons.mp hsep with hsep | hsep
          · exact h hsep.symm
          · exact ih p0 (htail ▸ List.mem_cons_self p0 t) hsep
        · exact ih piece (htail ▸ List.mem_cons_of_mem p0 hmem)

/-- Joining the pieces with the separator restores the string. -/
theorem joinWith_splitOnChar (sep : Char) (s : Str) :
    joinWith [sep] (splitOnChar sep s) = s := by
  induction s with
  | nil => simp [splitOnChar, joinWith]
  | cons c rest ih =>
    by_cases h : c = sep
    · subst h
      simp only [splitOnChar, if_pos rfl]
      rcases htail : splitOnChar c rest with _ | ⟨p0, t⟩
      · exact absurd htail (splitOnChar_ne_nil c rest)
      · rw [htail] at ih
        simpa [joinWith] using ih
    · simp only [splitOnChar, if_neg h]
      rcases htail : splitOnChar sep rest with _ | ⟨p0, t⟩
      · exact absurd htail (splitOnChar_ne_nil sep rest)
      · rw [htail] at ih
        rcases t with _ | ⟨p1, t⟩
        · simpa [joinWith] using congrArg (c :: ·) ih
        · simp only [joinWith] at ih ⊢
          simpa using congrArg (c :: ·) ih


/-- A UUID match has exactly 36 characters. -/
theorem isUuid_length (u : Str) (h : isUuid u = true) : u.length = 36 := by
  unfold isUuid at h
  rcases hsp : splitOnChar '-' u with _ | ⟨a, t⟩
  · rw [hsp] at h; exact absurd h (by simp)
  · rw [hsp] at h
    rcases t with _ | ⟨b, t⟩
    · exact absurd h (by simp)
    rcases t with _ | ⟨c, t⟩
    · exact absurd h (by simp)
    rcases t with _ | ⟨d, t⟩
    · exact absurd h (by simp)
    rcases t with _ | ⟨e, t⟩
    · exact absurd h (by simp)
    rcases t with _ | ⟨x, t⟩
    · simp only [Bool.and_eq_true, beq_iff_eq] at h
      have hu := joinWith_splitOnChar '-' u
      rw [hsp] at hu
      have hlen : u.length = (joinWith ['-'] [a, b, c, d, e]).length := by rw [hu]
      rw [hlen]
      simp [joinWith, h.1.1.1.1.1, h.1.1.1.1.2, h.1.1.1.2, h.1.1.2, h.1.2]
    · exact absurd h (by simp)

/-- Any filename of the convention shape decodes to its two UUID groups. -/
theorem parseIds_of_convention (p u1 u2 ext : Str)
    (h1 : isUuid u1 = true) (h2 : isUuid u2 = true) (hext : lowerStr ext = ".pdf".data) :
    parseIdsFromFilename (p ++ ("__".data ++ (u1 ++ ("__".data ++ (u2 ++ ext))))) = some (u1, u2) := by
  have hl1 : u1.length = 36 := isUuid_length u1 h1
  have hl2 : u2.length = 36 := isUuid_length u2 h2
  have hlext : ext.length = 4 := by
    have h4 := congrArg List.length hext
    simpa [lowerStr] using h4
  set tail : Str := "__".data ++ (u1 ++ ("__".data ++ (u2 ++ ext))) with htail
  have hlt : tail.length = 80 := by simp [htail, hl1, hl2, hlext]
  set fn : Str := p ++ tail with hfn
  have hlf : fn.length = p.length + 80 := by simp [hfn, hlt]
  have hnl : ¬ fn.length < 80 := by omega
  have hdrop : fn.drop (fn.length - 80) = tail := by
    have hp : p.length = fn.length - 80 := by omega
    exact List.drop_left' hp
  rw [parseIdsFromFilename, if_neg hnl, hdrop]
  have e1 : tail.take 2 = "__".data := List.take_left' (by simp)
  have e2 : (tail.drop 2).take 36 = u1 := by
    have : tail.drop 2 = u1 ++ ("__".data ++ (u2 ++ ext)) := List.drop_left' (by simp)
    rw [this]
    exact List.take_left' hl1
  have h38 : tail = ("__".data ++ u1) ++ ("__".data ++ (u2 ++ ext)) := by
    simp [htail, List.append_assoc]
  have e3 : (tail.drop 38).take 2 = "__".data := by
    have : tail.drop 38 = "__".data ++ (u2 ++ ext) := by
      rw [h38]
      exact List.drop_left' (by simp [hl1])
    rw [this]
    exact List.take_left' (by simp)
  have h40 : tail = (("__".data ++ u1) ++ "__".data) ++ (u2 ++ ext) := by
    simp [htail, List.append_assoc]
  have e4 : (tail.drop 40).take 36 = u2 := by
    have : tail.drop 40 = u2 ++ ext := by
      rw [h40]
      exact List.drop_left' (by simp [hl1])
    rw [this]
    exact List.take_left' hl2
  have h76 : tail = ((("__".data ++ u1) ++ "__".data) ++ u2) ++ ext := by
    simp [htail, List.append_assoc]
  have e5 : tail.drop 76 = ext := by
    rw [h76]
    exact List.drop_left' (by simp [hl1, hl2])
  rw [suffixIds]
  simp only [e1, e2, e3, e4, e5]
  simp [hext, h1, h2]

/-- A successful decode exhibits the convention shape. -/
theorem convention_of_parseIds (f u1 u2 : Str)
    (h : parseIdsFromFilename f = some (u1, u2)) : FollowsConvention f u1 u2 := by
  rw [parseIdsFromFilename] at h
  by_cases hlen : f.length < 80
  · rw [if_pos hlen] at h
    exact absurd h (by simp)
  · rw [if_neg hlen] at h
    set tail := f.drop (f.length - 80) with htail
    rw [suffixIds] at h
    by_cases hc : tail.take 2 = "__".data ∧ (tail.drop 38).take 2 = "__".data
        ∧ lowerStr (tail.drop 76) = ".pdf".data ∧ isUuid ((tail.drop 2).take 36) = true
        ∧ isUuid ((tail.drop 40).take 36) = true
    · rw [if_pos hc] at h
      obtain ⟨hc1, hc2, hc3, hc4, hc5⟩ := hc
      have hpair := Option.some.inj h
      have hu1 : (tail.drop 2).take 36 = u1 := congrArg Prod.fst hpair
      have hu2 : (tail.drop 40).take 36 = u2 := congrArg Prod.snd hpair
      obtain ⟨p, hp⟩ : ∃ p, f.take (f.length - 80) = p := ⟨_, rfl⟩
      obtain ⟨ext, hcext⟩ : ∃ e, tail.drop 76 = e := ⟨_, rfl⟩
      refine ⟨p, ext, ?_, hcext ▸ hc3, hu1 ▸ hc4, hu2 ▸ hc5⟩
      have hf : f = f.take (f.length - 80) ++ tail := (List.take_append_drop _ f).symm
      have t1 : tail = "__".data ++ tail.drop 2 := by
        conv_lhs => rw [← List.take_append_drop 2 tail]
        rw [hc1]
      have t2 : tail.drop 2 = u1 ++ tail.drop 38 := by
        conv_lhs => rw [← List.take_append_drop 36 (tail.drop 2)]
        rw [hu1, List.drop_drop]
      have t4 : tail.drop 38 = "__".data ++ tail.drop 40 := by
        conv_lhs => rw [← List.take_append_drop 2 (tail.drop 38)]
        rw [hc2, List.drop_drop]
      have t5 : tail.drop 40 = u2 ++ tail.drop 76 := by
        conv_lhs => rw [← List.take_append_drop 36 (tail.drop 40)]
        rw [hu2, List.drop_drop]
      have ttotal : tail = "__".data ++ (u1 ++ ("__".data ++ (u2 ++ ext))) := by
        rw [t1]
        congr 1
        rw [t2]
        congr 1
        rw [t4]
        congr 1
        rw [t5, hcext]
      calc f = f.take (f.length - 80) ++ tail := hf
        _ = p ++ tail := by rw [hp]
        _ = p ++ "__".data ++ u1 ++ "__".data ++ u2 ++ ext := by
              rw [ttotal]
              simp [List.append_assoc]
    · rw [if_neg hc] at h
      exact absurd h (by simp)

/-- C9: `parseIdsFromFilename` is an identity codec — it returns a pair of
UUIDs exactly for filenames ending in `__<uuid>__<uuid>.pdf`
(case-insensitively) and then returns exactly those two UUIDs; every other
filename yields the null identity. -/
theorem parseIds_identity_codec (f u1 u2 : Str) :
    (parseIdsFromFilename f = some (u1, u2) ↔ FollowsConvention f u1 u2)
    ∧ (parseIdsFromFilename f = none ↔ ∀ v1 v2, ¬ FollowsConvention f v1 v2) := by
  have fwd : ∀ v1 v2, FollowsConvention f v1 v2 → parseIdsFromFilename f = some (v1, v2) := by
    rintro v1 v2 ⟨p, ext, hfeq, hext, h1, h2⟩
    have hnested : f = p ++ ("__".data ++ (v1 ++ ("__".data ++ (v2 ++ ext)))) := by
      rw [hfeq]
      simp [List.append_assoc]
    rw [hnested]
    exact parseIds_of_convention p v1 v2 ext h1 h2 hext
  refine ⟨⟨convention_of_parseIds f u1 u2, fwd u1 u2⟩, ?_, ?_⟩
  · intro hnone v1 v2 hconv
    rw [fwd v1 v2 hconv] at hnone
    exact Option.noConfusion hnone
  · intro hnot
    rcases hp : parseIdsFromFilename f with _ | ⟨a, b⟩
    · rfl
    · exact absurd (convention_of_parseIds f a b hp) (hnot a b)

/-- An LLM response text containing two JSON objects amid prose. -/
def twoObjectsText : Str := "a\x7b\"x\":1\x7d b\x7b\"y\":2\x7d".data

/-- Counterexample to C4 as stated: this text is not valid JSON and its first
balanced JSON object substring exists and parses, yet `parseJsonResponse`
fails hard — the greedy regex extracts from the first opening brace to the
last closing brace, which spans both objects and is not valid JSON. -/
theorem parse_recovery_not_first_balanced :
    (jsonParse twoObjectsText).isNone = true
    ∧ firstBalancedObject twoObjectsText = some ("\x7b\"x\":1\x7d".data)
    ∧ (jsonParse ("\x7b\"x\":1\x7d".data)).isSome = true
    ∧ isParseError (parseJsonResponse twoObjectsText) = true := by
  refine ⟨by decide, by decide, by decide, by decide⟩

/-- C4 amended: for every response text, `parseJsonResponse` succeeds with `v`
iff either the text itself is valid JSON parsing to `v`, or the text is not
valid JSON and the substring from its first opening brace to its last closing
brace (the greedy `/\x7b[\s\S]*\x7d/` match) exists and parses to `v`; it
fails hard iff the text is not valid JSON and that substring is absent or
itself invalid.  (The extracted span is not in general the first balanced
JSON object substring.) -/
theorem parse_recovery_greedy_span (text : Str) (v : Json) :
    (parseJsonResponse text = .ok v ↔
      (jsonParse text = some v
        ∨ (jsonParse text = none ∧ (braceSpan text).bind jsonParse = some v)))
    ∧ (isParseError (parseJsonResponse text) = true ↔
        (jsonParse text = none ∧ (braceSpan text).bind jsonParse = none)) := by
  rw [parseJsonResponse]
  rcases h : jsonParse text with _ | w
  · rcases hb : braceSpan text with _ | sp
    · simp [hb, isParseError]
    · rcases hs : jsonParse sp with _ | u
      · simp [hb, hs, isParseError]
      · simp [hb, hs, isParseError]
  · simp [isParseError]

/-- Characters below the surrogate range round-trip through `Char.ofNat`. -/
theorem toNat_ofNat_valid (n : Nat) (h : n < 55296) : (Char.ofNat n).toNat = n := by
  have hv : n.isValidChar := Or.inl h
  unfold Char.ofNat
  rw [dif_pos hv]
  rfl

/-- Lowercasing maps only `,` to `,`. -/
theorem toLower_eq_comma (c : Char) (h : c.toLower = ',') : c = ',' := by
  unfold Char.toLower at h
  by_cases hc : c.toNat ≥ 65 ∧ c.toNat ≤ 90
  · exfalso
    rw [if_pos hc] at h
    have h2 := congrArg Char.toNat h
    rw [toNat_ofNat_valid _ (by omega)] at h2
    have h44 : (',' : Char).toNat = 44 := by decide
    omega
  · rwa [if_neg hc] at h

/-- Whitespace characters are fixed by lowercasing. -/
theorem toLower_of_ws (c : Char) (h : isWsChar c = true) : c.toLower = c := by
  have hd : ((((c = ' ' ∨ c = '\t') ∨ c = '\n') ∨ c = '\r') ∨ c = '\x0b') ∨ c = '\x0c' := by
    simpa [isWsChar] using h
  rcases hd with ((((rfl | rfl) | rfl) | rfl) | rfl) | rfl <;> decide

/-- `dropWhile` is the identity when the head fails the predicate. -/
theorem dropWhile_eq_self_of_head (p : Char → Bool) (l : Str)
    (h : ∀ c, l.head? = some c → p c = false) : l.dropWhile p = l := by
  cases l with
  | nil => rfl
  | cons c rest => simp [List.dropWhile, h c rfl]

/-- The head of a `dropWhile` result fails the predicate. -/
theorem dropWhile_head_false (p : Char → Bool) (l : Str) :
    ∀ c, (l.dropWhile p).head? = some c → p c = false := by
  induction l with
  | nil => intro c h; simp [List.dropWhile] at h
  | cons a rest ih =>
    intro c h
    by_cases hp : p a
    · rw [List.dropWhile_cons, if_pos hp] at h
      exact ih c h
    · rw [List.dropWhile_cons, if_neg hp] at h
      injection h with h
      rw [← h]
      exact Bool.eq_false_iff.mpr hp

/-- A non-empty `dropWhile` result keeps the last element. -/
theorem getLast?_dropWhile (p : Char → Bool) (l : Str) (h : l.dropWhile p ≠ []) :
    (l.dropWhile p).getLast? = l.getLast? := by
  obtain ⟨t, ht⟩ := @List.dropWhile_suffix Char l p
  conv_rhs => rw [← ht]
  exact (List.getLast?_append_of_ne_nil t h).symm

/-- The first character of a trimmed string is not whitespace. -/
theorem trimStr_head_false (s : Str) :
    ∀ c, (trimStr s).head? = some c → isWsChar c = false := by
  intro c h
  unfold trimStr at h
  rw [List.head?_reverse] at h
  have hBne : ((s.dropWhile isWsChar).reverse).dropWhile isWsChar ≠ [] := by
    intro hnil
    rw [hnil] at h
    exact Option.noConfusion h
  rw [getLast?_dropWhile _ _ hBne, List.getLast?_reverse] at h
  exact dropWhile_head_false _ _ c h

/-- The last character of a trimmed string is not whitespace. -/
theorem trimStr_getLast_false (s : Str) :
    ∀ c, (trimStr s).getLast? = some c → isWsChar c = false := by
  intro c h
  unfold trimStr at h
  rw [List.getLast?_reverse] at h
  exact dropWhile_head_false _ _ c h

/-- A string with non-whitespace ends is its own trim. -/
theorem trimStr_eq_self_of (s : Str)
    (h1 : ∀ c, s.head? = some c → isWsChar c = false)
    (h2 : ∀ c, s.getLast? = some c → isWsChar c = false) : trimStr s = s := by
  unfold trimStr
  rw [dropWhile_eq_self_of_head _ _ h1]
  rw [dropWhile_eq_self_of_head _ _ (by
    intro c hc
    rw [List.head?_reverse] at hc
    exact h2 c hc)]
  exact List.reverse_reverse s

/-- Trimming is idempotent. -/
theorem trimStr_idem (s : Str) : trimStr (trimStr s) = trimStr s :=
  trimStr_eq_self_of _ (trimStr_head_false s) (trimStr_getLast_false s)

/-- Trimming only removes characters. -/
theorem mem_trimStr (c : Char) (s : Str) (h : c ∈ trimStr s) : c ∈ s := by
  unfold trimStr at h
  rw [List.mem_reverse] at h
  have h2 := (List.dropWhile_suffix _).subset h
  rw [List.mem_reverse] at h2
  exact (List.dropWhile_suffix _).subset h2

/-- A manifest row line `k,v` with trimmed ends is its own trim. -/
theorem trimStr_entry_line (k v : Str) (hk : trimStr k = k) (hkn : k ≠ [])
    (hv : trimStr v = v) : trimStr (k ++ ',' :: v) = k ++ ',' :: v := by
  apply trimStr_eq_self_of
  · intro c hc
    rw [List.head?_append_of_ne_nil _ hkn] at hc
    rw [← hk] at hc
    exact trimStr_head_false k c hc
  · intro c hc
    rw [List.getLast?_append_of_ne_nil _ (by simp)] at hc
    cases v with
    | nil =>
      simp at hc
      subst hc
      decide
    | cons v0 vr =>
      have hlast : (',' :: v0 :: vr).getLast? = (v0 :: vr).getLast? :=
        @List.getLast?_append_of_ne_nil Char [','] (v0 :: vr) (by simp)
      rw [hlast] at hc
      rw [← hv] at hc
      exact trimStr_getLast_false _ c hc

/-- `dropTrailCr` fixes strings not ending in a carriage return. -/
theorem dropTrailCr_eq_self (s : Str) (h : ¬ s.getLast? = some '\r') : dropTrailCr s = s := by
  unfold dropTrailCr
  rw [if_neg h]

/-- `dropTrailCr` fixes trimmed strings. -/
theorem dropTrailCr_of_trimmed (s : Str) (h : trimStr s = s) : dropTrailCr s = s := by
  apply dropTrailCr_eq_self
  intro hl
  have hw := trimStr_getLast_false s '\r' (by rw [h]; exact hl)
  exact absurd hw (by decide)

/-- A trim is empty exactly when the string is all whitespace. -/
theorem trimStr_eq_nil_iff (s : Str) : trimStr s = [] ↔ ∀ c ∈ s, isWsChar c = true := by
  constructor
  · intro h c hc
    unfold trimStr at h
    rw [List.reverse_eq_nil_iff, List.dropWhile_eq_nil_iff] at h
    by_cases hcd : c ∈ s.dropWhile isWsChar
    · exact h c (List.mem_reverse.mpr hcd)
    · have hs : s.takeWhile isWsChar ++ s.dropWhile isWsChar = s :=
        List.takeWhile_append_dropWhile isWsChar s
      rw [← hs] at hc
      rcases List.mem_append.mp hc with h1 | h1
      · exact List.mem_takeWhile_imp h1
      · exact absurd h1 hcd
  · intro h
    unfold trimStr
    rw [List.dropWhile_eq_nil_iff.mpr (fun c hc => h c hc)]
    rfl

/-- Characters of split pieces come from the split string. -/
theorem mem_of_mem_splitOnChar (sep : Char) (s : Str) :
    ∀ piece ∈ splitOnChar sep s, ∀ c ∈ piece, c ∈ s := by
  induction s with
  | nil =>
    intro piece hp c hc
    rw [splitOnChar, List.mem_singleton] at hp
    subst hp
    cases hc
  | cons a rest ih =>
    intro piece hp c hc
    by_cases ha : a = sep
    · rw [splitOnChar, if_pos ha] at hp
      rcases List.mem_cons.mp hp with h1 | h1
      · subst h1; cases hc
      · exact List.mem_cons_of_mem a (ih piece h1 c hc)
    · rcases htail : splitOnChar sep rest with _ | ⟨p0, t⟩
      · exact absurd htail (splitOnChar_ne_nil sep rest)
      · rw [splitOnChar, if_neg ha, htail] at hp
        rcases List.mem_cons.mp hp with h1 | h1
        · subst h1
          rcases List.mem_cons.mp hc with h2 | h2
          · exact h2 ▸ List.mem_cons_self a rest
          · exact List.mem_cons_of_mem a
              (ih p0 (htail ▸ List.mem_cons_self p0 t) c h2)
        · exact List.mem_cons_of_mem a
            (ih piece (htail ▸ List.mem_cons_of_mem p0 h1) c hc)

/-- Splitting at the first comma of `a ++ ',' :: b` for comma-free `a`. -/
theorem splitAtComma_append (a b : Str) (ha : ',' ∉ a) :
    splitAtComma (a ++ ',' :: b) = some (a, b) := by
  induction a with
  | nil => simp [splitAtComma]
  | cons c rest ih =>
    have hc : ¬ c = ',' := fun h => ha (h ▸ List.mem_cons_self c rest)
    have hrest : ',' ∉ rest := fun h => ha (List.mem_cons_of_mem c h)
    rw [List.cons_append, splitAtComma, if_neg hc, ih hrest]
    rfl

/-- A successful comma split reconstructs the line. -/
theorem splitAtComma_eq (s : Str) :
    ∀ a b, splitAtComma s = some (a, b) → s = a ++ ',' :: b := by
  induction s with
  | nil => intro a b h; exact absurd h (by simp [splitAtComma])
  | cons c rest ih =>
    intro a b h
    by_cases hc : c = ','
    · rw [splitAtComma, if_pos hc] at h
      injection h with h
      obtain ⟨h1, h2⟩ := Prod.mk.inj h
      rw [← h1, ← h2, hc]
      rfl
    · rw [splitAtComma, if_neg hc] at h
      rcases hr : splitAtComma rest with _ | ⟨a0, b0⟩
      · rw [hr] at h; exact absurd h (by simp)
      · rw [hr] at h
        injection h with h
        replace h : (c :: a0, b0) = (a, b) := h
        obtain ⟨h1, h2⟩ := Prod.mk.inj h
        rw [← h1, ← h2, List.cons_append, ← ih a0 b0 hr]

/-- The part before the first comma is comma-free. -/
theorem splitAtComma_no_comma (s : Str) :
    ∀ a b, splitAtComma s = some (a, b) → ',' ∉ a := by
  induction s with
  | nil => intro a b h; exact absurd h (by simp [splitAtComma])
  | cons c rest ih =>
    intro a b h
    by_cases hc : c = ','
    · rw [splitAtComma, if_pos hc] at h
      injection h with h
      obtain ⟨h1, h2⟩ := Prod.mk.inj h
      rw [← h1]
      simp
    · rw [splitAtComma, if_neg hc] at h
      rcases hr : splitAtComma rest with _ | ⟨a0, b0⟩
      · rw [hr] at h; exact absurd h (by simp)
      · rw [hr] at h
        injection h with h
        replace h : (c :: a0, b0) = (a, b) := h
        obtain ⟨h1, h2⟩ := Prod.mk.inj h
        rw [← h1]
        intro hmem
        rcases List.mem_cons.mp hmem with h2' | h2'
        · exact hc h2'.symm
        · exact ih a0 b0 hr h2'

/-- `lowerStr` distributes over append. -/
theorem lowerStr_append (a b : Str) : lowerStr (a ++ b) = lowerStr a ++ lowerStr b :=
  List.map_append _ a b

/-- Lowercasing keeps commas out of comma-free strings. -/
theorem comma_not_mem_lowerStr (k : Str) (hk : ',' ∉ k) : ',' ∉ lowerStr k := by
  intro h
  rw [lowerStr, List.mem_map] at h
  obtain ⟨c, hc, hlc⟩ := h
  rw [toLower_eq_comma c hlc] at hc
  exact hk hc

/-- For comma-free `a` and `a'`, the prefix test on comma-delimited lines
reduces to equality of the first fields. -/
theorem isPrefixOf_comma_delim (b b' : Str) :
    ∀ a a' : Str, ',' ∉ a → ',' ∉ a' →
      ((a ++ ',' :: b).isPrefixOf (a' ++ ',' :: b') = true ↔
        a = a' ∧ b.isPrefixOf b' = true) := by
  intro a
  induction a with
  | nil =>
    intro a' ha ha'
    cases a' with
    | nil => simp [List.isPrefixOf]
    | cons c' rest' =>
      have hc' : ¬ (',' : Char) = c' := fun h => ha' (h ▸ List.mem_cons_self c' rest')
      simp [List.isPrefixOf, hc']
  | cons c rest ih =>
    intro a' ha ha'
    have hc : ¬ c = ',' := fun h => ha (h ▸ List.mem_cons_self c rest)
    have hrest : ',' ∉ rest := fun h => ha (List.mem_cons_of_mem c h)
    cases a' with
    | nil => simp [List.isPrefixOf, hc]
    | cons c' rest' =>
      have hrest' : ',' ∉ rest' := fun h => ha' (List.mem_cons_of_mem c' h)
      simp only [List.cons_append, List.isPrefixOf, Bool.and_eq_true, beq_iff_eq, List.append_eq]
      rw [ih rest' hrest hrest']
      constructor
      · rintro ⟨rfl, rfl, h3⟩
        exact ⟨rfl, h3⟩
      · rintro ⟨h1, h3⟩
        injection h1 with hx hy
        exact ⟨hx, hy, h3⟩

/-- A data line `k,v` with comma-free `k` is header-like exactly when `k`
lowercases to `filename`. -/
theorem isHeaderLine_entry (k v : Str) (hk : ',' ∉ k) :
    isHeaderLine (k ++ ',' :: v) = true ↔ lowerStr k = "filename".data := by
  unfold isHeaderLine
  have hlow : lowerStr (k ++ ',' :: v) = lowerStr k ++ ',' :: lowerStr v := by
    rw [lowerStr_append]
    rfl
  rw [hlow]
  have hshape : "filename,".data = "filename".data ++ ',' :: ([] : Str) := by decide
  rw [hshape]
  rw [isPrefixOf_comma_delim _ _ _ _ (by decide) (comma_not_mem_lowerStr k hk)]
  constructor
  · rintro ⟨h1, _⟩
    exact h1.symm
  · intro h
    exact ⟨h.symm, by simp [List.isPrefixOf]⟩

/-- Characters survive `dropTrailCr` membership-wise. -/
theorem mem_dropTrailCr (c : Char) (s : Str) (h : c ∈ dropTrailCr s) : c ∈ s := by
  unfold dropTrailCr at h
  by_cases hl : s.getLast? = some '\r'
  · rw [if_pos hl] at h
    exact List.dropLast_subset s h
  · rwa [if_neg hl] at h

/-- An all-whitespace file has no content lines. -/
theorem contentLines_of_all_ws (raw : Str) (h : trimStr raw = []) :
    contentLines raw = [] := by
  rw [trimStr_eq_nil_iff] at h
  unfold contentLines
  rw [List.filter_eq_nil_iff]
  intro l hl
  rw [List.mem_map] at hl
  obtain ⟨piece0, hp0, htr⟩ := hl
  unfold splitLines at hp0
  rw [List.mem_map] at hp0
  obtain ⟨piece, hp, hdc⟩ := hp0
  have hws : ∀ c ∈ piece0, isWsChar c = true := by
    intro c hc
    rw [← hdc] at hc
    exact h c (mem_of_mem_splitOnChar '\n' raw piece hp c (mem_dropTrailCr c piece hc))
  rw [← htr, (trimStr_eq_nil_iff piece0).mpr hws]
  simp

/-- The header-only file parses to the empty map. -/
theorem readLabels_header_only : readLabels (some (headerLine ++ ['\n'])) = [] := by
  decide

/-- `ensureHeader` does not change the parsed map. -/
theorem readLabels_ensureHeader (st : Option Str) :
    readLabels (some (ensureHeader st)) = readLabels st := by
  cases st with
  | none => exact readLabels_header_only
  | some raw =>
    simp only [ensureHeader]
    by_cases h : (trimStr raw).isEmpty
    · rw [if_pos h, readLabels_header_only]
      have hcl : contentLines raw = [] :=
        contentLines_of_all_ws raw (List.isEmpty_iff.mp h)
      simp only [readLabels, hcl]
      rfl
    · rw [if_neg h]

/-- `contentLines` of a file with one line appended (with separator newline as
in `appendIfMissing`). -/
theorem contentLines_snoc_line (base line : Str) (hnl : '\n' ∉ line)
    (hts : trimStr line = line) (hne : line ≠ []) :
    contentLines (base ++ ((if endsWithNewline base then ([] : Str) else ['\n']) ++ (line ++ ['\n'])))
      = contentLines base ++ [line] := by
  have hsl : splitOnChar '\n' (line ++ ['\n']) = [line, []] := by
    have h := splitOnChar_append '\n' line []
    rw [splitOnChar_no_sep '\n' line hnl] at h
    simpa [splitOnChar] using h
  have hproc : ∀ L1 L2 : List Str,
      List.filter (fun l => !l.isEmpty) (List.map trimStr (List.map dropTrailCr (L1 ++ L2)))
        = List.filter (fun l => !l.isEmpty) (List.map trimStr (List.map dropTrailCr L1))
          ++ List.filter (fun l => !l.isEmpty) (List.map trimStr (List.map dropTrailCr L2)) := by
    intro L1 L2
    simp [List.filter_append]
  have hline1 : List.filter (fun l => !l.isEmpty)
      (List.map trimStr (List.map dropTrailCr ([line, []] : List Str))) = [line] := by
    have h1 : dropTrailCr line = line := dropTrailCr_of_trimmed line hts
    have h2 : dropTrailCr [] = ([] : Str) := rfl
    have h3 : trimStr [] = ([] : Str) := rfl
    simp only [List.map_cons, List.map_nil, h1, h2, hts, h3]
    simp [hne]
  by_cases hend : endsWithNewline base
  · have hbne : base ≠ [] := by
      intro h
      rw [h] at hend
      simp [endsWithNewline] at hend
    have hlast : base.getLast hbne = '\n' := by
      have h1 : base.getLast? = some (base.getLast hbne) := List.getLast?_eq_getLast base hbne
      have h2 : base.getLast? == some '\n' := by simpa [endsWithNewline] using hend
      have h3 : base.getLast? = some '\n' := by simpa using h2
      rw [h1] at h3
      exact Option.some.inj h3
    have hbeq : base = base.dropLast ++ ['\n'] := by
      conv_lhs => rw [← List.dropLast_concat_getLast hbne]
      rw [hlast]
    rw [if_pos hend]
    have harr : base ++ (([] : Str) ++ (line ++ ['\n']))
        = base.dropLast ++ ('\n' :: (line ++ ['\n'])) := by
      conv_lhs => rw [hbeq]
      simp [List.append_assoc]
    rw [harr]
    unfold contentLines splitLines
    rw [splitOnChar_append '\n' base.dropLast (line ++ ['\n']), hsl]
    conv_rhs => rw [hbeq]
    rw [show (base.dropLast ++ ['\n'] : Str) = base.dropLast ++ '\n' :: [] from by simp]
    rw [splitOnChar_append '\n' base.dropLast []]
    rw [hproc, hproc]
    rw [hline1]
    simp [splitOnChar, dropTrailCr, trimStr]
  · rw [if_neg hend]
    have harr : base ++ (['\n'] ++ (line ++ ['\n'])) = base ++ ('\n' :: (line ++ ['\n'])) := by
      simp
    rw [harr]
    unfold contentLines splitLines
    rw [splitOnChar_append '\n' base (line ++ ['\n']), hsl]
    rw [hproc]
    rw [hline1]

/-- Reading a manifest whose content lines are those of `base` plus one
well-formed, non-header data row appended. -/
theorem readLabels_snoc_entry (content base k v : Str)
    (hcl : contentLines content = contentLines base ++ [k ++ ',' :: v])
    (hk : ',' ∉ k) (hkts : trimStr k = k) (hkne : k ≠ [])
    (hvts : trimStr v = v) (hvne : v ≠ [])
    (hklow : lowerStr k ≠ "filename".data) :
    readLabels (some content) = mapSet (readLabels (some base)) k v := by
  have hnothdr : ¬ isHeaderLine (k ++ ',' :: v) = true := by
    rw [isHeaderLine_entry k v hk]
    exact hklow
  have hparse : parseEntryLine (k ++ ',' :: v) = some (k, v) := by
    unfold parseEntryLine
    rw [splitAtComma_append k v hk]
    simp only [hkts, hvts]
    simp [hkne, hvne]
  rcases hb : contentLines base with _ | ⟨l0, rest⟩
  · simp only [readLabels, hcl, hb, List.nil_append]
    rw [if_neg hnothdr]
    simp [hparse]
  · simp only [readLabels, hcl, hb, List.cons_append]
    by_cases hl0 : isHeaderLine l0
    · rw [if_pos hl0, if_pos hl0, List.foldl_append]
      simp [hparse]
    · rw [if_neg hl0, if_neg hl0]
      rw [show (l0 :: (rest ++ [k ++ ',' :: v])) = (l0 :: rest) ++ [k ++ ',' :: v] from by simp]
      rw [List.foldl_append]
      simp [hparse]

/-- A present filename makes `appendIfMissing` a no-op returning the label. -/
theorem appendIfMissing_found (st : Option Str) (f l : Str)
    (hl : mapGet (readLabels st) f = some l) : appendIfMissing st f = (st, l) := by
  unfold appendIfMissing
  rw [hl]

/-- An absent well-formed filename is appended as `pending`. -/
theorem appendIfMissing_missing (st : Option Str) (f : Str)
    (hne : f ≠ []) (hcf : ',' ∉ f) (hnlf : '\n' ∉ f) (hts : trimStr f = f)
    (hlow : lowerStr f ≠ "filename".data)
    (hmiss : mapGet (readLabels st) f = none) :
    readLabels (appendIfMissing st f).1 = mapSet (readLabels st) f pendingLabel
    ∧ (appendIfMissing st f).2 = pendingLabel := by
  have happ : appendIfMissing st f
      = (some (ensureHeader st
          ++ (if endsWithNewline (ensureHeader st) then ([] : Str) else ['\n'])
          ++ f ++ ',' :: pendingLabel ++ ['\n']), pendingLabel) := by
    unfold appendIfMissing
    rw [hmiss]
  rw [happ]
  refine ⟨?_, rfl⟩
  set base := ensureHeader st with hbase
  set line : Str := f ++ ',' :: pendingLabel with hline
  have hshape : base ++ (if endsWithNewline base then ([] : Str) else ['\n'])
        ++ f ++ ',' :: pendingLabel ++ ['\n']
      = base ++ ((if endsWithNewline base then ([] : Str) else ['\n']) ++ (line ++ ['\n'])) := by
    simp [hline, List.append_assoc]
  rw [hshape]
  have hlnl : '\n' ∉ line := by
    rw [hline]
    intro h
    rcases List.mem_append.mp h with h1 | h1
    · exact hnlf h1
    · revert h1
      decide
  have hlts : trimStr line = line := trimStr_entry_line f pendingLabel hts hne (by decide)
  have hlne : line ≠ [] := by
    rw [hline]
    simp
  have hcl := contentLines_snoc_line base line hlnl hlts hlne
  rw [hline] at hcl
  have h2 := readLabels_snoc_entry _ base f pendingLabel hcl hcf hts hne (by decide) (by decide) hlow
  rw [h2, readLabels_ensureHeader]

/-- Counterexample to C5 as stated: for a filename containing a comma the
append is not idempotent — the stored row's key is truncated at the comma, so
a second call misses the entry and appends a duplicate row, changing the
manifest again. -/
theorem appendIfMissing_comma_not_idempotent :
    (appendIfMissing ((appendIfMissing none ("a,b.pdf".data)).1) ("a,b.pdf".data)).1
      ≠ (appendIfMissing none ("a,b.pdf".data)).1 := by
  decide

/-- C5 amended: for filenames that are non-empty, comma-free, newline-free,
trim-stable and do not lowercase to `filename`, `appendIfMissing` is
idempotent — the second call returns exactly the state and label of the
first, an existing label (terminal ones included) is returned with the state
untouched, and one call inserts at most the single `pending` binding. -/
theorem appendIfMissing_idempotent (st : Option Str) (f : Str)
    (hne : f ≠ []) (hcf : ',' ∉ f) (hnlf : '\n' ∉ f) (hts : trimStr f = f)
    (hlow : lowerStr f ≠ "filename".data) :
    appendIfMissing (appendIfMissing st f).1 f
      = ((appendIfMissing st f).1, (appendIfMissing st f).2)
    ∧ (∀ l, mapGet (readLabels st) f = some l → appendIfMissing st f = (st, l))
    ∧ readLabels (appendIfMissing st f).1
        = (if mapGet (readLabels st) f = none
           then mapSet (readLabels st) f pendingLabel else readLabels st) := by
  rcases hg : mapGet (readLabels st) f with _ | l
  · obtain ⟨h1, h2⟩ := appendIfMissing_missing st f hne hcf hnlf hts hlow hg
    have hm : mapGet (readLabels (appendIfMissing st f).1) f
        = some ((appendIfMissing st f).2) := by
      rw [h1, h2]
      exact mapGet_mapSet_self _ f pendingLabel
    refine ⟨appendIfMissing_found _ f _ hm, fun l hl => absurd hl (by simp), ?_⟩
    rw [h1, if_pos rfl]
  · have hm : mapGet (readLabels (appendIfMissing st f).1) f
        = some ((appendIfMissing st f).2) := by
      rw [appendIfMissing_found st f l hg]
      exact hg
    refine ⟨appendIfMissing_found _ f _ hm, fun l' hl' => ?_, ?_⟩
    · rw [← Option.some.inj hl']
      exact appendIfMissing_found st f l hg
    · rw [appendIfMissing_found st f l hg]
      simp

/-- Witness for amended C5 at a concrete filename and the empty store. -/
theorem appendIfMissing_idempotent_witness :
    ("cv.pdf".data ≠ ([] : Str))
    ∧ appendIfMissing (appendIfMissing none "cv.pdf".data).1 "cv.pdf".data
        = ((appendIfMissing none "cv.pdf".data).1, (appendIfMissing none "cv.pdf".data).2) :=
  ⟨by decide,
   (appendIfMissing_idempotent none "cv.pdf".data (by decide) (by decide) (by decide)
      (by decide) (by decide)).1⟩

/-- Well-formedness of a row as produced by the parsers: non-empty comma-free
trim-stable newline-free filename, trim-stable newline-free label. -/
def RowWF (kv : Str × Str) : Prop :=
  kv.1 ≠ [] ∧ trimStr kv.1 = kv.1 ∧ ',' ∉ kv.1 ∧ '\n' ∉ kv.1
    ∧ '\n' ∉ kv.2 ∧ trimStr kv.2 = kv.2

/-- `parseEntryLine` on a well-formed serialized row. -/
theorem parseEntryLine_entry (k v : Str) (hk : ',' ∉ k) (hkts : trimStr k = k)
    (hkne : k ≠ []) (hvts : trimStr v = v) :
    parseEntryLine (k ++ ',' :: v) = if v.isEmpty then none else some (k, v) := by
  unfold parseEntryLine
  rw [splitAtComma_append k v hk]
  simp only [hkts, hvts]
  by_cases hv : v.isEmpty
  · simp [hv]
  · simp [hv, hkne]

/-- Folding parse steps over lines equals folding `mapSet` over the parsed
rows. -/
theorem foldl_parse_eq (lines : List Str) :
    ∀ m0 : List (Str × Str),
      lines.foldl (fun m line =>
          match parseEntryLine line with
          | some fl => mapSet m fl.1 fl.2
          | none => m) m0
        = (lines.filterMap parseEntryLine).foldl (fun m kv => mapSet m kv.1 kv.2) m0 := by
  induction lines with
  | nil => intro m0; rfl
  | cons line rest ih =>
    intro m0
    rcases hp : parseEntryLine line with _ | kv
    · simp [List.filterMap_cons, hp, ih]
    · simp [List.filterMap_cons, hp, ih]

/-- `mapGet` after folding `mapSet` bindings: the last binding for the key
wins, falling back to the initial map. -/
theorem mapGet_foldl_mapSet (rows : List (Str × Str)) :
    ∀ (m0 : List (Str × Str)) (k : Str),
      mapGet (rows.foldl (fun m kv => mapSet m kv.1 kv.2) m0) k
        = (match (rows.filter (fun kv => kv.1 == k)).getLast? with
           | some kv => some kv.2
           | none => mapGet m0 k) := by
  induction rows with
  | nil => intro m0 k; rfl
  | cons kv rest ih =>
    intro m0 k
    rw [List.foldl_cons, ih]
    by_cases hk : kv.1 = k
    · have hb : (kv.1 == k) = true := beq_iff_eq.mpr hk
      rcases hfr : rest.filter (fun kv => kv.1 == k) with _ | ⟨x, xs⟩
      · simp only [List.filter_cons, hb, if_true, hfr, List.getLast?_singleton]
        rw [hk]
        exact mapGet_mapSet_self m0 k kv.2
      · simp only [List.filter_cons, hb, if_true, hfr, List.getLast?_cons_cons]
        rcases hg : (x :: xs).getLast? with _ | y
        · rw [List.getLast?_eq_none_iff] at hg
          exact absurd hg (by simp)
        · rfl
    · have hb : (kv.1 == k) = false := beq_eq_false_iff_ne.mpr hk
      rcases hfr : rest.filter (fun kv => kv.1 == k) with _ | ⟨x, xs⟩
      · simp only [List.filter_cons, hb, Bool.false_eq_true, if_false, hfr]
        exact mapGet_mapSet_ne m0 kv.1 k kv.2 hk
      · simp only [List.filter_cons, hb, Bool.false_eq_true, if_false, hfr]
        rcases hg : (x :: xs).getLast? with _ | y
        · rw [List.getLast?_eq_none_iff] at hg
          exact absurd hg (by simp)
        · rfl

/-- `mapSet` on an absent key appends the binding. -/
theorem mapSet_append_of_absent (m : List (Str × Str)) (k v : Str)
    (h : ∀ kv ∈ m, kv.1 ≠ k) : mapSet m k v = m ++ [(k, v)] := by
  induction m with
  | nil => rfl
  | cons kv rest ih =>
    have hk : ¬ kv.1 = k := h kv (List.mem_cons_self kv rest)
    rw [show mapSet (kv :: rest) k v
        = if kv.1 = k then (kv.1, v) :: rest else kv :: mapSet rest k v from rfl]
    rw [if_neg hk, ih (fun kv' h' => h kv' (List.mem_cons_of_mem kv h'))]
    rfl

/-- Folding `mapSet` over rows with pairwise-fresh keys reproduces the rows. -/
theorem foldl_mapSet_of_nodup (rows : List (Str × Str)) :
    ∀ m0 : List (Str × Str),
      (rows.map (fun kv => kv.1)).Nodup →
      (∀ kv ∈ rows, ∀ kv0 ∈ m0, kv0.1 ≠ kv.1) →
      rows.foldl (fun m kv => mapSet m kv.1 kv.2) m0 = m0 ++ rows := by
  induction rows with
  | nil => intro m0 _ _; simp
  | cons kv rest ih =>
    intro m0 hnd hfresh
    rw [List.foldl_cons]
    rw [mapSet_append_of_absent m0 kv.1 kv.2
      (fun kv0 h0 => hfresh kv (List.mem_cons_self kv rest) kv0 h0)]
    rw [List.map_cons, List.nodup_cons] at hnd
    rw [ih (m0 ++ [(kv.1, kv.2)]) hnd.2 ?_]
    · simp
    · intro kv' h' kv0 h0
      rcases List.mem_append.mp h0 with h1 | h1
      · exact hfresh kv' (List.mem_cons_of_mem kv h') kv0 h1
      · rw [List.mem_singleton.mp h1]
        intro heq
        exact hnd.1 (heq ▸ List.mem_map_of_mem (fun kv => kv.1) h')

/-- All bindings of `mapSet` satisfy a predicate preserved from the map and
the new binding. -/
theorem mapSet_forall (P : Str × Str → Prop) (m : List (Str × Str)) (k v : Str)
    (hm : ∀ kv ∈ m, P kv) (hkv : P (k, v)) : ∀ kv ∈ mapSet m k v, P kv := by
  induction m with
  | nil => intro kv h; rw [List.mem_singleton.mp h]; exact hkv
  | cons kv0 rest ih =>
    intro kv h
    by_cases h0 : kv0.1 = k
    · rw [show mapSet (kv0 :: rest) k v
          = if kv0.1 = k then (kv0.1, v) :: rest else kv0 :: mapSet rest k v from rfl,
        if_pos h0] at h
      rcases List.mem_cons.mp h with h1 | h1
      · rw [h1, h0]; exact hkv
      · exact hm kv (List.mem_cons_of_mem kv0 h1)
    · rw [show mapSet (kv0 :: rest) k v
          = if kv0.1 = k then (kv0.1, v) :: rest else kv0 :: mapSet rest k v from rfl,
        if_neg h0] at h
      rcases List.mem_cons.mp h with h1 | h1
      · rw [h1]; exact hm kv0 (List.mem_cons_self kv0 rest)
      · exact ih (fun kv' h' => hm kv' (List.mem_cons_of_mem kv0 h')) kv h1

/-- `mapSet` keeps the key list unchanged or appends the new key. -/
theorem mapSet_keys (m : List (Str × Str)) (k v : Str) :
    (mapSet m k v).map (fun kv => kv.1) = m.map (fun kv => kv.1)
    ∨ (mapSet m k v).map (fun kv => kv.1) = m.map (fun kv => kv.1) ++ [k] := by
  induction m with
  | nil => right; rfl
  | cons kv0 rest ih =>
    by_cases h0 : kv0.1 = k
    · left
      rw [show mapSet (kv0 :: rest) k v
          = if kv0.1 = k then (kv0.1, v) :: rest else kv0 :: mapSet rest k v from rfl,
        if_pos h0]
      rfl
    · rw [show mapSet (kv0 :: rest) k v
          = if kv0.1 = k then (kv0.1, v) :: rest else kv0 :: mapSet rest k v from rfl,
        if_neg h0]
      rcases ih with ih | ih
      · left
        simp [ih]
      · right
        simp [ih]

/-- `mapSet` preserves distinctness of keys. -/
theorem mapSet_nodup_keys (m : List (Str × Str)) (k v : Str)
    (h : (m.map (fun kv => kv.1)).Nodup) : ((mapSet m k v).map (fun kv => kv.1)).Nodup := by
  induction m with
  | nil => exact List.nodup_singleton k
  | cons kv0 rest ih =>
    rw [List.map_cons, List.nodup_cons] at h
    by_cases h0 : kv0.1 = k
    · rw [show mapSet (kv0 :: rest) k v
          = if kv0.1 = k then (kv0.1, v) :: rest else kv0 :: mapSet rest k v from rfl,
        if_pos h0]
      rw [List.map_cons, List.nodup_cons]
      exact ⟨h.1, h.2⟩
    · rw [show mapSet (kv0 :: rest) k v
          = if kv0.1 = k then (kv0.1, v) :: rest else kv0 :: mapSet rest k v from rfl,
        if_neg h0]
      rw [List.map_cons, List.nodup_cons]
      refine ⟨?_, ih h.2⟩
      rcases mapSet_keys rest k v with hk | hk
      · rw [hk]; exact h.1
      · rw [hk]
        intro hmem
        rcases List.mem_append.mp hmem with h1 | h1
        · exact h.1 h1
        · exact h0 (List.mem_singleton.mp h1)

/-- Splitting a newline-joined list (with trailing newline) recovers the
pieces plus one empty piece. -/
theorem splitOnChar_joinWith (xs : List Str) (hxs : ∀ x ∈ xs, '\n' ∉ x) (hne : xs ≠ []) :
    splitOnChar '\n' (joinWith ['\n'] xs ++ ['\n']) = xs ++ [[]] := by
  induction xs with
  | nil => exact absurd rfl hne
  | cons x rest ih =>
    cases rest with
    | nil =>
      rw [show joinWith ['\n'] [x] = x from rfl]
      have h := splitOnChar_append '\n' x []
      rw [splitOnChar_no_sep '\n' x (hxs x (List.mem_singleton.mpr rfl))] at h
      simpa [splitOnChar] using h
    | cons y ys =>
      have hxnl : '\n' ∉ x := hxs x (List.mem_cons_self x (y :: ys))
      have hrest : ∀ z ∈ y :: ys, '\n' ∉ z :=
        fun z hz => hxs z (List.mem_cons_of_mem x hz)
      have hjoin : joinWith ['\n'] (x :: y :: ys) = x ++ '\n' :: joinWith ['\n'] (y :: ys) := by
        rw [show joinWith ['\n'] (x :: y :: ys)
            = x ++ ['\n'] ++ joinWith ['\n'] (y :: ys) from rfl]
        simp [List.append_assoc]
      rw [hjoin]
      rw [show (x ++ '\n' :: joinWith ['\n'] (y :: ys)) ++ ['\n']
          = x ++ '\n' :: (joinWith ['\n'] (y :: ys) ++ ['\n']) from by simp]
      rw [splitOnChar_append '\n' x (joinWith ['\n'] (y :: ys) ++ ['\n'])]
      rw [ih hrest (by simp)]
      rw [splitOnChar_no_sep '\n' x hxnl]
      rfl

/-- The serialized row lines. -/
theorem contentLines_serializeRows (rows : List (Str × Str))
    (hwf : ∀ kv ∈ rows, RowWF kv) :
    contentLines (serializeRows rows)
      = headerLine :: rows.map (fun kv => kv.1 ++ ',' :: kv.2) := by
  unfold serializeRows contentLines splitLines
  have hlines : ∀ x ∈ headerLine :: rows.map (fun kv => kv.1 ++ ',' :: kv.2), '\n' ∉ x := by
    intro x hx
    rcases List.mem_cons.mp hx with h1 | h1
    · rw [h1]; decide
    · rw [List.mem_map] at h1
      obtain ⟨kv, hkv, hx1⟩ := h1
      obtain ⟨_, _, _, hknl, hvnl, _⟩ := hwf kv hkv
      rw [← hx1]
      intro hmem
      rcases List.mem_append.mp hmem with h2 | h2
      · exact hknl h2
      · rcases List.mem_cons.mp h2 with h3 | h3
        · exact absurd h3.symm (by decide)
        · exact hvnl h3
  rw [splitOnChar_joinWith _ hlines (by simp)]
  have hfix : ∀ x ∈ headerLine :: rows.map (fun kv => kv.1 ++ ',' :: kv.2),
      dropTrailCr x = x ∧ trimStr x = x ∧ x ≠ [] := by
    intro x hx
    rcases List.mem_cons.mp hx with h1 | h1
    · rw [h1]
      refine ⟨by decide, by decide, by decide⟩
    · rw [List.mem_map] at h1
      obtain ⟨kv, hkv, hx1⟩ := h1
      obtain ⟨hkne, hkts, _, _, _, hvts⟩ := hwf kv hkv
      have hts : trimStr x = x := by
        rw [← hx1]
        exact trimStr_entry_line kv.1 kv.2 hkts hkne hvts
      refine ⟨dropTrailCr_of_trimmed x hts, hts, ?_⟩
      rw [← hx1]
      simp [hkne]
  set L := headerLine :: rows.map (fun kv => kv.1 ++ ',' :: kv.2) with hL
  rw [show (L ++ [[]] : List Str).map dropTrailCr
      = L.map dropTrailCr ++ [[]] from by simp [dropTrailCr]]
  rw [show (L.map dropTrailCr ++ ([[]] : List Str)).map trimStr
      = (L.map dropTrailCr).map trimStr ++ [[]] from by simp [trimStr]]
  rw [List.filter_append]
  have hmap1 : L.map dropTrailCr = L :=
    (List.map_congr_left (fun x hx => (hfix x hx).1)).trans (List.map_id L)
  have hmap2 : L.map trimStr = L :=
    (List.map_congr_left (fun x hx => (hfix x hx).2.1)).trans (List.map_id L)
  rw [hmap1, hmap2]
  rw [List.filter_eq_self.mpr (fun x hx => by simpa using (hfix x hx).2.2)]
  simp

/-- Folding the parse step over serialized rows folds `mapSet` over the rows
with non-empty labels. -/
theorem foldl_parse_rows (rows : List (Str × Str)) (hwf : ∀ kv ∈ rows, RowWF kv) :
    ∀ m0 : List (Str × Str),
      (rows.map (fun kv => kv.1 ++ ',' :: kv.2)).foldl (fun m line =>
          match parseEntryLine line with
          | some fl => mapSet m fl.1 fl.2
          | none => m) m0
        = (rows.filter (fun kv => !kv.2.isEmpty)).foldl
            (fun m kv => mapSet m kv.1 kv.2) m0 := by
  induction rows with
  | nil => intro m0; rfl
  | cons kv rest ih =>
    intro m0
    obtain ⟨hkne, hkts, hkcf, _, _, hvts⟩ := hwf kv (List.mem_cons_self kv rest)
    have hrest := fun kv' h' => hwf kv' (List.mem_cons_of_mem kv h')
    rw [List.map_cons, List.foldl_cons]
    rw [parseEntryLine_entry kv.1 kv.2 hkcf hkts hkne hvts]
    by_cases hv : kv.2.isEmpty
    · rw [if_pos hv]
      rw [List.filter_cons_of_neg (by simp [hv])]
      exact ih hrest m0
    · rw [if_neg hv]
      rw [List.filter_cons_of_pos (by simp [hv])]
      rw [List.foldl_cons]
      exact ih hrest (mapSet m0 kv.1 kv.2)

/-- `readLabels` of a serialized row list folds the rows with non-empty
labels. -/
theorem readLabels_serializeRows (rows : List (Str × Str))
    (hwf : ∀ kv ∈ rows, RowWF kv) :
    readLabels (some (serializeRows rows))
      = (rows.filter (fun kv => !kv.2.isEmpty)).foldl
          (fun m kv => mapSet m kv.1 kv.2) [] := by
  simp only [readLabels, contentLines_serializeRows rows hwf,
    show isHeaderLine headerLine = true from by decide, if_true]
  exact foldl_parse_rows rows hwf []

/-- Parsed entries are well-formed with non-empty labels. -/
theorem parseEntryLine_wf (line : Str) (hnl : '\n' ∉ line) (kv : Str × Str)
    (h : parseEntryLine line = some kv) : RowWF kv ∧ kv.2 ≠ [] := by
  unfold parseEntryLine at h
  rcases hsp : splitAtComma line with _ | ⟨a, b⟩
  · rw [hsp] at h
    exact absurd h (by simp)
  · rw [hsp] at h
    replace h : (if ((trimStr a).isEmpty || (trimStr b).isEmpty)
        then none else some (trimStr a, trimStr b)) = some kv := h
    by_cases hemp : (trimStr a).isEmpty || (trimStr b).isEmpty
    · rw [if_pos hemp] at h
      exact absurd h (by simp)
    · rw [if_neg hemp] at h
      injection h with h
      have hline := splitAtComma_eq line a b hsp
      have hacf : ',' ∉ a := splitAtComma_no_comma line a b hsp
      rw [Bool.or_eq_true, not_or] at hemp
      obtain ⟨hae, hbe⟩ := hemp
      have hane : trimStr a ≠ [] := fun hx => hae (by simp [hx])
      have hbne : trimStr b ≠ [] := fun hx => hbe (by simp [hx])
      have hmema : ∀ c ∈ trimStr a, c ∈ line := by
        intro c hc
        rw [hline]
        exact List.mem_append.mpr (Or.inl (mem_trimStr c a hc))
      have hmemb : ∀ c ∈ trimStr b, c ∈ line := by
        intro c hc
        rw [hline]
        exact List.mem_append.mpr (Or.inr (List.mem_cons_of_mem ',' (mem_trimStr c b hc)))
      rw [← h]
      refine ⟨⟨hane, trimStr_idem a, ?_, ?_, ?_, trimStr_idem b⟩, hbne⟩
      · intro hc
        exact hacf (mem_trimStr ',' a hc)
      · intro hc
        exact hnl (hmema '\n' hc)
      · intro hc
        exact hnl (hmemb '\n' hc)

/-- Content lines contain no newline. -/
theorem contentLines_no_newline (raw : Str) : ∀ line ∈ contentLines raw, '\n' ∉ line := by
  intro line hl
  unfold contentLines at hl
  rw [List.mem_filter] at hl
  obtain ⟨hm, _⟩ := hl
  rw [List.mem_map] at hm
  obtain ⟨piece0, hp0, htr⟩ := hm
  unfold splitLines at hp0
  rw [List.mem_map] at hp0
  obtain ⟨piece, hp, hdc⟩ := hp0
  intro hmem
  have h1 : '\n' ∈ piece := by
    apply mem_dropTrailCr
    rw [hdc]
    exact mem_trimStr _ _ (htr ▸ hmem)
  exact splitOnChar_pieces_no_sep '\n' raw piece hp h1

/-- Folding the parse step preserves well-formedness and key distinctness. -/
theorem foldl_parse_wf (lines : List Str) :
    ∀ m0 : List (Str × Str), (∀ line ∈ lines, '\n' ∉ line) →
      (∀ kv ∈ m0, RowWF kv ∧ kv.2 ≠ []) → ((m0.map (fun kv => kv.1)).Nodup) →
      (∀ kv ∈ lines.foldl (fun m line =>
          match parseEntryLine line with
          | some fl => mapSet m fl.1 fl.2
          | none => m) m0, RowWF kv ∧ kv.2 ≠ [])
      ∧ (((lines.foldl (fun m line =>
          match parseEntryLine line with
          | some fl => mapSet m fl.1 fl.2
          | none => m) m0).map (fun kv => kv.1)).Nodup) := by
  induction lines with
  | nil => intro m0 _ hm hnd; exact ⟨hm, hnd⟩
  | cons line rest ih =>
    intro m0 hlines hm hnd
    have hlnl : '\n' ∉ line := hlines line (List.mem_cons_self line rest)
    have hrest : ∀ l ∈ rest, '\n' ∉ l := fun l hl => hlines l (List.mem_cons_of_mem line hl)
    rw [List.foldl_cons]
    rcases hp : parseEntryLine line with _ | fl
    · exact ih m0 hrest hm hnd
    · have hfl := parseEntryLine_wf line hlnl fl hp
      exact ih (mapSet m0 fl.1 fl.2) hrest
        (mapSet_forall _ m0 fl.1 fl.2 hm (by simpa using hfl))
        (mapSet_nodup_keys m0 fl.1 fl.2 hnd)

/-- Entries of `readLabels` are well-formed, have non-empty labels, and carry
pairwise-distinct filenames. -/
theorem readLabels_wf (st : Option Str) :
    (∀ kv ∈ readLabels st, RowWF kv ∧ kv.2 ≠ [])
    ∧ (((readLabels st).map (fun kv => kv.1)).Nodup) := by
  cases st with
  | none => exact ⟨fun kv h => absurd h (by simp [readLabels]), by simp [readLabels]⟩
  | some raw =>
    have hsub : ∀ line, line ∈ (match contentLines raw with
        | [] => ([] : List Str)
        | l0 :: rest => if isHeaderLine l0 then rest else l0 :: rest) →
        line ∈ contentLines raw := by
      intro line hl
      rcases hcl : contentLines raw with _ | ⟨l0, rest⟩
      · rw [hcl] at hl
        cases hl
      · rw [hcl] at hl
        replace hl : line ∈ (if isHeaderLine l0 then rest else l0 :: rest) := hl
        by_cases hh : isHeaderLine l0
        · rw [if_pos hh] at hl
          exact List.mem_cons_of_mem l0 hl
        · rwa [if_neg hh] at hl
    have h := foldl_parse_wf (match contentLines raw with
        | [] => ([] : List Str)
        | l0 :: rest => if isHeaderLine l0 then rest else l0 :: rest) []
      (fun line hl => contentLines_no_newline raw line (hsub line hl))
      (fun kv h => absurd h (by simp)) (by simp)
    exact h

/-- C8: `cleanOrphans` removes exactly the entries whose backing file is
absent from the directory, keeps every other entry with its label unchanged,
and reports the removed filenames and the number of kept entries. -/
theorem cleanOrphans_removes_exactly (st : Option Str) (dir : List Str) :
    (cleanOrphans st dir).2.1
        = ((readLabels st).filter (fun kv => !(dir.contains kv.1))).map (fun kv => kv.1)
    ∧ (cleanOrphans st dir).2.2
        = ((readLabels st).filter (fun kv => dir.contains kv.1)).length
    ∧ readLabels (cleanOrphans st dir).1
        = (readLabels st).filter (fun kv => dir.contains kv.1) := by
  by_cases hre : (((readLabels st).filter (fun kv => !(dir.contains kv.1))).map
      (fun kv => kv.1)).isEmpty
  · have hclean : cleanOrphans st dir
        = (st, (((readLabels st).filter (fun kv => !(dir.contains kv.1))).map (fun kv => kv.1),
            ((readLabels st).filter (fun kv => dir.contains kv.1)).length)) := by
      unfold cleanOrphans
      rw [if_pos hre]
    rw [hclean]
    refine ⟨rfl, rfl, ?_⟩
    have hall : ∀ kv ∈ readLabels st, dir.contains kv.1 = true := by
      intro kv hkv
      by_contra hc
      have hmem : kv.1 ∈ ((readLabels st).filter (fun kv => !(dir.contains kv.1))).map
          (fun kv => kv.1) :=
        List.mem_map_of_mem _ (List.mem_filter.mpr ⟨hkv, by simpa using hc⟩)
      rw [List.isEmpty_iff.mp hre] at hmem
      cases hmem
    exact (List.filter_eq_self.mpr hall).symm
  · have hclean : cleanOrphans st dir
        = (some (serializeRows ((readLabels st).filter (fun kv => dir.contains kv.1))),
           (((readLabels st).filter (fun kv => !(dir.contains kv.1))).map (fun kv => kv.1),
            ((readLabels st).filter (fun kv => dir.contains kv.1)).length)) := by
      unfold cleanOrphans
      rw [if_neg hre]
    rw [hclean]
    refine ⟨rfl, rfl, ?_⟩
    have hwfAll := (readLabels_wf st).1
    have hnd := (readLabels_wf st).2
    set kept := (readLabels st).filter (fun kv => dir.contains kv.1) with hkept
    have hwfk : ∀ kv ∈ kept, RowWF kv := by
      intro kv h
      exact (hwfAll kv (List.mem_filter.mp h).1).1
    rw [readLabels_serializeRows kept hwfk]
    have hfne : kept.filter (fun kv => !kv.2.isEmpty) = kept := by
      apply List.filter_eq_self.mpr
      intro kv h
      simpa using (hwfAll kv (List.mem_filter.mp h).1).2
    rw [hfne]
    have hndk : (kept.map (fun kv => kv.1)).Nodup := by
      have hsub : List.Sublist kept (readLabels st) := List.filter_sublist _
      exact (hsub.map (fun kv => kv.1)).nodup hnd
    have := foldl_mapSet_of_nodup kept [] hndk (fun kv _ kv0 h0 => absurd h0 (by simp))
    simpa using this

/-- Modelled from the spec (§4.1): the read-merge-write contract — a mutating
operation's on-disk result is the full rewrite (header plus rows) of the
operation applied to the freshly parsed row view of the file, unparsable rows
skipped. -/
def rewriteFromRows (st : Option Str) (merge : List (Str × Str) → List (Str × Str)) : Str :=
  serializeRows (merge (scanRows (ensureHeader st)))

/-- The spec's merge for `appendIfMissing`: insert `pending` if absent. -/
def appendMerge (f : Str) (rows : List (Str × Str)) : List (Str × Str) :=
  if rows.any (fun kv => kv.1 == f) then rows else rows ++ [(f, pendingLabel)]

/-- `scanRows` ignores blank lines, so it factors through `contentLines`. -/
theorem scanRows_eq (raw : Str) :
    scanRows raw = (contentLines raw).filterMap parseRowKeep := by
  unfold scanRows contentLines
  induction ((splitLines raw).map trimStr) with
  | nil => rfl
  | cons x rest ih =>
    by_cases hx : x.isEmpty
    · have hnone : parseRowKeep x = none := by
        unfold parseRowKeep
        rw [if_pos hx]
      rw [List.filterMap_cons, hnone, List.filter_cons_of_neg (by simp [hx])]
      exact ih
    · rw [List.filterMap_cons, List.filter_cons_of_pos (by simp [hx]), List.filterMap_cons]
      rcases hp : parseRowKeep x with _ | kv
      · exact ih
      · rw [ih]

/-- Counterexample to C7 as stated: `appendIfMissing` patches in place — a
malformed row (`garbage`, no comma) survives the append, while any rewrite
from the freshly parsed row view drops it. -/
theorem appendIfMissing_not_full_rewrite :
    (appendIfMissing (some ("filename,label\ngarbage\n".data)) ("x.pdf".data)).1
        = some ("filename,label\ngarbage\nx.pdf,pending\n".data)
    ∧ (appendIfMissing (some ("filename,label\ngarbage\n".data)) ("x.pdf".data)).1
        ≠ some (rewriteFromRows (some ("filename,label\ngarbage\n".data))
            (appendMerge ("x.pdf".data))) := by
  refine ⟨by decide, by decide⟩

/-- C7 amended: `upsertLabel` always, and `removeEntry` whenever it finds the
entry, produce exactly the full rewrite of the freshly parsed row view
(header plus rows, unparsable rows skipped); `appendIfMissing` instead
appends a single line in place (see the counterexample). -/
theorem upsert_remove_full_rewrite (st : Option Str) (f l : Str) :
    (upsertLabel st f l).1 = some (rewriteFromRows st (fun rows => upsertRows rows f l))
    ∧ (∀ (st2 : Option Str) (f2 : Str), (removeEntry st2 f2).2 = true →
        (removeEntry st2 f2).1
          = some (rewriteFromRows st2 (fun rows => rows.filter (fun kv => !(kv.1 == f2))))) := by
  constructor
  · rfl
  · intro st2 f2 hfound
    cases st2 with
    | none => simp [removeEntry] at hfound
    | some raw =>
      by_cases hany : (scanRows raw).any (fun kv => kv.1 == f2)
      · have hres : removeEntry (some raw) f2
            = (some (serializeRows ((scanRows raw).filter (fun kv => !(kv.1 == f2)))), true) := by
          show (if ((scanRows raw).any fun kv => kv.1 == f2) = true
              then (some (serializeRows (List.filter (fun kv => !(kv.1 == f2)) (scanRows raw))), true)
              else (some raw, false)) = _
          rw [if_pos hany]
        rw [hres]
        have hne : scanRows raw ≠ [] := by
          intro h0
          rw [h0] at hany
          simp at hany
        have hcl : contentLines raw ≠ [] := by
          intro h0
          rw [scanRows_eq, h0] at hne
          exact hne rfl
        have htr : ¬ (trimStr raw).isEmpty := by
          intro h0
          exact hcl (contentLines_of_all_ws raw (List.isEmpty_iff.mp h0))
        unfold rewriteFromRows
        rw [show ensureHeader (some raw) = raw from by simp [ensureHeader, htr]]
      · have hres : removeEntry (some raw) f2 = (some raw, false) := by
          show (if ((scanRows raw).any fun kv => kv.1 == f2) = true
              then (some (serializeRows (List.filter (fun kv => !(kv.1 == f2)) (scanRows raw))), true)
              else (some raw, false)) = _
          rw [if_neg hany]
        rw [hres] at hfound
        exact absurd hfound (by simp)

/-- Witness for amended C7: a concrete upsert and a concrete found remove. -/
theorem upsert_remove_full_rewrite_witness :
    (removeEntry (some ("filename,label\na.pdf,pending\n".data)) ("a.pdf".data)).2 = true
    ∧ (removeEntry (some ("filename,label\na.pdf,pending\n".data)) ("a.pdf".data)).1
        = some (rewriteFromRows (some ("filename,label\na.pdf,pending\n".data))
            (fun rows => rows.filter (fun kv => !(kv.1 == "a.pdf".data)))) :=
  ⟨by decide,
   (upsert_remove_full_rewrite (some ("filename,label\na.pdf,pending\n".data))
      ("a.pdf".data) pendingLabel).2
     (some ("filename,label\na.pdf,pending\n".data)) ("a.pdf".data) (by decide)⟩


/-- One row scanned by `upsertLabel`/`removeEntry` from a newline-free line is
well-formed. -/
theorem parseRowKeep_wf (line : Str) (hnl : '\n' ∉ line) (kv : Str × Str)
    (h : parseRowKeep line = some kv) : RowWF kv := by
  unfold parseRowKeep at h
  by_cases he : line.isEmpty
  · rw [if_pos he] at h; exact absurd h (by simp)
  rw [if_neg he] at h
  by_cases hh : isHeaderLine line = true
  · rw [if_pos hh] at h; exact absurd h (by simp)
  rw [if_neg hh] at h
  rcases hsp : splitAtComma line with _ | ⟨a, b⟩
  · rw [hsp] at h; exact absurd h (by simp)
  rw [hsp] at h
  replace h : (if (trimStr a).isEmpty then none
      else some (trimStr a, trimStr b)) = some kv := h
  by_cases hta : (trimStr a).isEmpty
  · rw [if_pos hta] at h; exact absurd h (by simp)
  rw [if_neg hta] at h
  have hkv : kv = (trimStr a, trimStr b) := (Option.some.inj h).symm
  subst hkv
  have hline := splitAtComma_eq line a b hsp
  have hca := splitAtComma_no_comma line a b hsp
  have hna : '\n' ∉ a := fun hc => hnl (by rw [hline]; exact List.mem_append.mpr (Or.inl hc))
  have hnb : '\n' ∉ b := fun hc =>
    hnl (by rw [hline]; exact List.mem_append.mpr (Or.inr (List.mem_cons_of_mem _ hc)))
  refine ⟨?_, trimStr_idem a, ?_, ?_, ?_, trimStr_idem b⟩
  · intro h0
    have h0' : trimStr a = [] := h0
    exact hta (by rw [h0']; rfl)
  · intro hc; exact hca (mem_trimStr _ _ hc)
  · intro hc; exact hna (mem_trimStr _ _ hc)
  · intro hc; exact hnb (mem_trimStr _ _ hc)

/-- Every row scanned from a manifest file is well-formed. -/
theorem scanRows_wf (raw : Str) : ∀ kv ∈ scanRows raw, RowWF kv := by
  intro kv hkv
  rw [scanRows_eq] at hkv
  rcases List.mem_filterMap.mp hkv with ⟨line, hline, hp⟩
  exact parseRowKeep_wf line (contentLines_no_newline raw line hline) kv hp

/-- The row rewrite of `upsertLabel` preserves well-formedness. -/
theorem upsertRows_wf (rows : List (Str × Str)) (f l : Str)
    (hrows : ∀ kv ∈ rows, RowWF kv) (hfl : RowWF (f, l)) :
    ∀ kv ∈ upsertRows rows f l, RowWF kv := by
  intro kv hkv
  unfold upsertRows at hkv
  by_cases hany : rows.any (fun kv => kv.1 == f) = true
  · rw [if_pos hany] at hkv
    rcases List.mem_map.mp hkv with ⟨kv0, hkv0, heq⟩
    by_cases h : kv0.1 = f
    · rw [if_pos h] at heq; rw [← heq]; exact hfl
    · rw [if_neg h] at heq; rw [← heq]; exact hrows kv0 hkv0
  · rw [if_neg hany] at hkv
    rcases List.mem_append.mp hkv with h | h
    · exact hrows kv h
    · rw [List.mem_singleton.mp h]; exact hfl

/-- Pushing two stacked filters through a `cons`. -/
theorem filter2_cons (p q : Str × Str → Bool) (x : Str × Str) (xs : List (Str × Str)) :
    (((x :: xs).filter p).filter q)
      = (if (p x && q x) = true then [x] else []) ++ ((xs.filter p).filter q) := by
  by_cases hp : p x = true
  · by_cases hq : q x = true
    · simp [List.filter_cons, hp, hq]
    · simp [List.filter_cons, hp, hq]
  · by_cases hq : q x = true
    · simp [List.filter_cons, hp, hq]
    · simp [List.filter_cons, hp, hq]

/-- After the found-branch substitution of `upsertRows`, the rows filtered at
the upserted filename are constantly the new binding. -/
theorem filter_self_map_upsert (rows : List (Str × Str)) (f l : Str) (hl : l ≠ []) :
    (((rows.map (fun kv => if kv.1 = f then (f, l) else kv)).filter
        (fun kv => !kv.2.isEmpty)).filter (fun kv => kv.1 == f))
      = (rows.filter (fun kv => kv.1 == f)).map (fun _ => ((f, l) : Str × Str)) := by
  induction rows with
  | nil => rfl
  | cons kv rest ih =>
    rw [List.map_cons, filter2_cons, List.filter_cons]
    by_cases h : kv.1 = f
    · rw [if_pos h]
      have hcond : ((!((f, l) : Str × Str).2.isEmpty) && (((f, l) : Str × Str).1 == f)) = true := by
        simp [hl]
      have hkf : (kv.1 == f) = true := beq_iff_eq.mpr h
      rw [if_pos hcond, if_pos hkf, List.map_cons, ih, List.singleton_append]
    · rw [if_neg h]
      have hkf : (kv.1 == f) = false := beq_eq_false_iff_ne.mpr h
      have hcond : ((!kv.2.isEmpty) && (kv.1 == f)) = false := by
        rw [hkf, Bool.and_false]
      rw [if_neg (by rw [hcond]; exact Bool.false_ne_true),
          if_neg (by rw [hkf]; exact Bool.false_ne_true), ih, List.nil_append]

/-- Rows none of whose filenames match filter away at that filename. -/
theorem filter_self_none (rows : List (Str × Str)) (f : Str)
    (hnone : ∀ kv ∈ rows, kv.1 ≠ f) :
    ((rows.filter (fun kv => !kv.2.isEmpty)).filter (fun kv => kv.1 == f)) = [] := by
  rw [List.filter_eq_nil_iff]
  intro kv hkv
  have hmem : kv ∈ rows := List.mem_of_mem_filter hkv
  simpa using hnone kv hmem

/-- After `upsertRows`, the last label-bearing row at the upserted filename is
the new binding. -/
theorem upsertRows_getLast_self (rows : List (Str × Str)) (f l : Str) (hl : l ≠ []) :
    ((((upsertRows rows f l).filter (fun kv => !kv.2.isEmpty)).filter
        (fun kv => kv.1 == f)).getLast?) = some (f, l) := by
  unfold upsertRows
  by_cases hany : rows.any (fun kv => kv.1 == f) = true
  · rw [if_pos hany, filter_self_map_upsert rows f l hl]
    rcases List.any_eq_true.mp hany with ⟨kv, hkv, hkvf⟩
    have hmem : kv ∈ rows.filter (fun kv => kv.1 == f) := List.mem_filter.mpr ⟨hkv, hkvf⟩
    rcases hfr : rows.filter (fun kv => kv.1 == f) with _ | ⟨x, xs⟩
    · rw [hfr] at hmem; exact absurd hmem (List.not_mem_nil kv)
    rw [hfr, List.getLast?_map]
    rcases hg : (x :: xs).getLast? with _ | y
    · exact absurd hg (by simp)
    · rfl
  · rw [if_neg hany]
    have hfalse : rows.any (fun kv => kv.1 == f) = false := Bool.eq_false_iff.mpr hany
    have hall : ∀ kv ∈ rows, kv.1 ≠ f := by
      intro kv hkv heq
      exact (List.any_eq_false.mp hfalse) kv hkv (beq_iff_eq.mpr heq)
    rw [List.filter_append, List.filter_append, filter_self_none rows f hall,
      List.nil_append]
    simp [List.filter_cons, hl]

/-- `upsertRows` leaves the label-bearing rows at every other filename
unchanged. -/
theorem upsertRows_filter_ne (rows : List (Str × Str)) (f l k : Str) (hk : k ≠ f) :
    (((upsertRows rows f l).filter (fun kv => !kv.2.isEmpty)).filter (fun kv => kv.1 == k))
      = ((rows.filter (fun kv => !kv.2.isEmpty)).filter (fun kv => kv.1 == k)) := by
  have hfk : ((f == k) = false) := beq_eq_false_iff_ne.mpr (Ne.symm hk)
  unfold upsertRows
  by_cases hany : rows.any (fun kv => kv.1 == f) = true
  · rw [if_pos hany]
    clear hany
    induction rows with
    | nil => rfl
    | cons kv rest ih =>
      rw [List.map_cons, filter2_cons, filter2_cons]
      by_cases h : kv.1 = f
      · rw [if_pos h]
        have hc1 : ((!((f, l) : Str × Str).2.isEmpty) && (((f, l) : Str × Str).1 == k)) = false := by
          simp [Ne.symm hk]
        have hc2 : ((!kv.2.isEmpty) && (kv.1 == k)) = false := by
          rw [h]
          simp [Ne.symm hk]
        rw [if_neg (by rw [hc1]; exact Bool.false_ne_true),
            if_neg (by rw [hc2]; exact Bool.false_ne_true), ih]
      · rw [if_neg h, ih]
  · rw [if_neg hany]
    rw [List.filter_append, List.filter_append]
    have hc : ((!((f, l) : Str × Str).2.isEmpty) && (((f, l) : Str × Str).1 == k)) = false := by
      simp [Ne.symm hk]
    have h2 : (([((f : Str), l)].filter (fun kv => !kv.2.isEmpty)).filter
        (fun kv => kv.1 == k)) = [] := by
      rw [filter2_cons, if_neg (by rw [hc]; exact Bool.false_ne_true)]
      rfl
    rw [h2, List.append_nil]

/-- The data lines `readLabels` folds over: the trimmed non-blank lines, minus
a leading header line. -/
def dataLinesOf (raw : Str) : List Str :=
  match contentLines raw with
  | [] => []
  | l0 :: rest => if isHeaderLine l0 then rest else l0 :: rest

/-- `readLabels` as a fold over `dataLinesOf`. -/
theorem readLabels_some_eq (raw : Str) :
    readLabels (some raw)
      = (dataLinesOf raw).foldl
          (fun m line =>
            match parseEntryLine line with
            | some fl => mapSet m fl.1 fl.2
            | none => m) [] := rfl

/-- A string lowercasing to `filename` contains no whitespace, hence trims to
itself. -/
theorem trimStr_of_lower_filename (a : Str) (h : lowerStr a = ("filename".data)) :
    trimStr a = a := by
  have hws : ∀ c ∈ a, isWsChar c = false := by
    intro c hc
    by_cases hw : isWsChar c = true
    · exfalso
      have hlc : c.toLower = c := toLower_of_ws c hw
      have hmem : c ∈ lowerStr a := by
        rw [lowerStr, ← hlc]
        exact List.mem_map_of_mem _ hc
      rw [h] at hmem
      have hnows : ∀ c ∈ ("filename".data : Str), isWsChar c = false := by decide
      rw [hnows c hmem] at hw
      exact Bool.false_ne_true hw
    · exact Bool.eq_false_iff.mpr hw
  apply trimStr_eq_self_of
  · intro c hc
    exact hws c (List.mem_of_mem_head? hc)
  · intro c hc
    exact hws c (List.mem_of_mem_getLast? hc)

/-- Per-line agreement between the row scan of `upsertLabel` and the entry
parse of `readLabels`, at a key that does not lowercase to `filename`. -/
theorem line_contrib (line k : Str) (hk : lowerStr k ≠ ("filename".data)) :
    (((parseRowKeep line).filter (fun kv => !kv.2.isEmpty)).filter (fun kv => kv.1 == k))
      = ((parseEntryLine line).filter (fun kv => kv.1 == k)) := by
  by_cases he : line.isEmpty
  · have hnil : line = [] := by simpa using he
    have h1 : parseRowKeep line = none := by rw [parseRowKeep, if_pos he]
    have h2 : parseEntryLine line = none := by rw [hnil]; rfl
    rw [h1, h2]; rfl
  by_cases hh : isHeaderLine line = true
  · have h1 : parseRowKeep line = none := by
      rw [parseRowKeep, if_neg he, if_pos hh]
    rw [h1]
    rcases hsp : splitAtComma line with _ | ⟨a, b⟩
    · have h2 : parseEntryLine line = none := by rw [parseEntryLine, hsp]
      rw [h2]; rfl
    · have hline := splitAtComma_eq line a b hsp
      have hca := splitAtComma_no_comma line a b hsp
      have hlowa : lowerStr a = "filename".data := by
        rw [hline] at hh
        exact (isHeaderLine_entry a b hca).mp hh
      have hta : trimStr a = a := trimStr_of_lower_filename a hlowa
      have h2 : parseEntryLine line
          = (if (trimStr a).isEmpty || (trimStr b).isEmpty then none
             else some (trimStr a, trimStr b)) := by
        rw [parseEntryLine, hsp]
      rw [h2, hta]
      by_cases hcase : (a.isEmpty || (trimStr b).isEmpty) = true
      · rw [if_pos hcase]; rfl
      · rw [if_neg hcase]
        have hak : (a == k) = false := by
          apply beq_eq_false_iff_ne.mpr
          intro heq
          exact hk (by rw [← heq]; exact hlowa)
        simp [Option.filter, hak]
  rcases hsp : splitAtComma line with _ | ⟨a, b⟩
  · have h1 : parseRowKeep line = none := by
      rw [parseRowKeep, if_neg he, if_neg hh, hsp]
    have h2 : parseEntryLine line = none := by rw [parseEntryLine, hsp]
    rw [h1, h2]; rfl
  · have h1 : parseRowKeep line
        = (if (trimStr a).isEmpty then none else some (trimStr a, trimStr b)) := by
      rw [parseRowKeep, if_neg he, if_neg hh, hsp]
    have h2 : parseEntryLine line
        = (if (trimStr a).isEmpty || (trimStr b).isEmpty then none
           else some (trimStr a, trimStr b)) := by
      rw [parseEntryLine, hsp]
    rw [h1, h2]
    by_cases hta : (trimStr a).isEmpty = true
    · rw [if_pos hta, if_pos (show ((trimStr a).isEmpty || (trimStr b).isEmpty) = true by
        rw [hta, Bool.true_or])]
      rfl
    · rw [if_neg hta]
      have hta' : (trimStr a).isEmpty = false := Bool.eq_false_iff.mpr hta
      by_cases htb : (trimStr b).isEmpty = true
      · rw [if_pos (show ((trimStr a).isEmpty || (trimStr b).isEmpty) = true by
          rw [htb, Bool.or_true])]
        simp [Option.filter, htb]
      · have htb' : (trimStr b).isEmpty = false := Bool.eq_false_iff.mpr htb
        rw [if_neg (show ¬(((trimStr a).isEmpty || (trimStr b).isEmpty) = true) by
          simp [hta', htb'])]
        simp [Option.filter, htb']

/-- The label-bearing rows `upsertLabel` scans agree with the entries
`readLabels` parses, at every key that does not lowercase to `filename`. -/
theorem scanRows_filter_read (raw k : Str) (hk : lowerStr k ≠ ("filename".data)) :
    (((scanRows raw).filter (fun kv => !kv.2.isEmpty)).filter (fun kv => kv.1 == k))
      = (((dataLinesOf raw).filterMap parseEntryLine).filter (fun kv => kv.1 == k)) := by
  rw [scanRows_eq]
  simp only [List.filter_filterMap]
  have hcong : ∀ L : List Str,
      L.filterMap (fun line =>
          ((parseRowKeep line).filter (fun kv => !kv.2.isEmpty)).filter (fun kv => kv.1 == k))
        = L.filterMap (fun line => (parseEntryLine line).filter (fun kv => kv.1 == k)) := by
    intro L
    induction L with
    | nil => rfl
    | cons x xs ih => simp only [List.filterMap_cons, line_contrib x k hk, ih]
  rcases hcl : contentLines raw with _ | ⟨l0, rest⟩
  · have hdl : dataLinesOf raw = [] := by
      unfold dataLinesOf
      rw [hcl]
    rw [hdl]
    rfl
  by_cases hh : isHeaderLine l0 = true
  · have hdl : dataLinesOf raw = rest := by
      unfold dataLinesOf
      rw [hcl]
      show (if isHeaderLine l0 = true then rest else l0 :: rest) = rest
      rw [if_pos hh]
    have h0 : ((parseRowKeep l0).filter (fun kv => !kv.2.isEmpty)).filter
        (fun kv => kv.1 == k) = none := by
      have hpk : parseRowKeep l0 = none := by
        rw [parseRowKeep]
        by_cases he : l0.isEmpty
        · rw [if_pos he]
        · rw [if_neg he, if_pos hh]
      rw [hpk]; rfl
    rw [hdl]
    simp only [List.filterMap_cons, h0]
    exact hcong rest
  · have hdl : dataLinesOf raw = l0 :: rest := by
      unfold dataLinesOf
      rw [hcl]
      show (if isHeaderLine l0 = true then rest else l0 :: rest) = l0 :: rest
      rw [if_neg hh]
    rw [hdl]
    exact hcong (l0 :: rest)

/-- C10 counterexample: the claimed preconditions (comma-free newline-free
non-header filename, non-empty newline-free label) do not suffice for the
round-trip.  Upserting the label `"x "` stores it verbatim, but `readLabels`
trims every field, so the filename reads back as mapped to `"x"`, not to the
label that was written. -/
theorem upsert_trailing_space_not_roundtrip :
    mapGet (readLabels
        (upsertLabel (some ("filename,label\n".data)) ("a.pdf".data) ("x ".data)).1)
      ("a.pdf".data) ≠ some ("x ".data) := by decide

/-- C10 (amended): round-trip through `upsertLabel` under trim-stability.  For
a non-empty comma-free newline-free trim-stable filename and a non-empty
newline-free trim-stable label, reading the manifest back after
`upsertLabel st f l` sends `f` to `l`; and every other key that does not
lowercase to the header word `filename` keeps exactly the label it had before
the call. -/
theorem upsert_readback (st : Option Str) (f l : Str)
    (hfne : f ≠ []) (hfcf : ',' ∉ f) (hfnl : '\n' ∉ f) (hfts : trimStr f = f)
    (hlne : l ≠ []) (hlnl : '\n' ∉ l) (hlts : trimStr l = l) :
    mapGet (readLabels (upsertLabel st f l).1) f = some l
    ∧ ∀ k, k ≠ f → lowerStr k ≠ ("filename".data) →
        mapGet (readLabels (upsertLabel st f l).1) k = mapGet (readLabels st) k := by
  have h1 : (upsertLabel st f l).1
      = some (serializeRows (upsertRows (scanRows (ensureHeader st)) f l)) := rfl
  have hwf : ∀ kv ∈ upsertRows (scanRows (ensureHeader st)) f l, RowWF kv :=
    upsertRows_wf _ f l (scanRows_wf _) ⟨hfne, hfts, hfcf, hfnl, hlnl, hlts⟩
  constructor
  · rw [h1, readLabels_serializeRows _ hwf, mapGet_foldl_mapSet,
        upsertRows_getLast_self _ f l hlne]
  · intro k hkf hklow
    rw [h1, readLabels_serializeRows _ hwf, mapGet_foldl_mapSet,
        upsertRows_filter_ne _ f l k hkf,
        scanRows_filter_read (ensureHeader st) k hklow,
        ← readLabels_ensureHeader st, readLabels_some_eq,
        foldl_parse_eq, mapGet_foldl_mapSet]

/-- Witness for the amended C10 round-trip at a concrete upsert. -/
theorem upsert_readback_witness :
    mapGet (readLabels (upsertLabel none ("cv.pdf".data) ("good_fit".data)).1)
      ("cv.pdf".data) = some ("good_fit".data) :=
  (upsert_readback none ("cv.pdf".data) ("good_fit".data) (by decide) (by decide)
    (by decide) (by decide) (by decide) (by decide) (by decide)).1

end ResumeReview
